import Mathlib

/-!
# Verification of the `graphs` package (primitives, BFS, random contraction)

This file gives a shallow embedding of `graphs/primitives.py` and
`graphs/random_contraction.py` and proves/refutes the frozen claims about them.

Modelling conventions:
* Python objects are identified by numeric ids; the heap is a pair of total
  functions from ids to node/edge records.  Python's `==` on `Node`/`Edge`
  objects (no `__eq__` defined) is object identity, i.e. id equality.
* Exceptions are modelled by the `Res` result type.  The single Python
  exception class `GraphException` is split into the error kinds the
  specification names for the corresponding raise sites (`duplicateLabel`,
  `notFound`, `invariantViolation`); built-in Python exceptions
  (`NameError`, `ValueError`, `IndexError`, `AssertionError`, `KeyError`,
  `AttributeError`) are modelled by constructors of the same name.
* Loops whose termination is not structural carry a fuel parameter; running
  out of fuel yields the distinguished outcome `Res.nofuel` (not a Python
  behaviour, only an artifact of the embedding).
* Mutation is modelled by state passing; a raised exception discards the
  mutated state, which is faithful because every claim only observes states
  through values returned normally.
-/

namespace Graphs

/-- Error kinds.  `duplicateLabel`, `notFound` and `invariantViolation` are the
spec's names for the distinct `GraphException` raise sites of the source; the
remaining constructors are Python built-in exceptions. -/
inductive PyErr where
  | duplicateLabel
  | notFound
  | invariantViolation
  | nameError
  | valueError
  | indexError
  | assertionError
  | keyError
  | attributeError
  deriving DecidableEq, Repr

/-- Result of running a piece of Python code: normal return, exception, or
fuel exhaustion (embedding artifact only). -/
inductive Res (α : Type) where
  | ok : α → Res α
  | err : PyErr → Res α
  | nofuel : Res α
  deriving DecidableEq, Repr

def Res.bind {α β : Type} : Res α → (α → Res β) → Res β
  | .ok a, f => f a
  | .err e, _ => .err e
  | .nofuel, _ => .nofuel

instance : Monad Res where
  pure := Res.ok
  bind := Res.bind

/-- `true` iff the computation returned normally. -/
def Res.isOk {α : Type} : Res α → Bool
  | .ok _ => true
  | _ => false

@[simp] theorem Res.bind_ok {α β : Type} (a : α) (f : α → Res β) :
    Res.bind (Res.ok a) f = f a := rfl

@[simp] theorem Res.bind_err {α β : Type} (e : PyErr) (f : α → Res β) :
    Res.bind (Res.err e) f = Res.err e := rfl

@[simp] theorem Res.bind_nofuel {α β : Type} (f : α → Res β) :
    Res.bind (Res.nofuel) f = Res.nofuel := rfl

/-- The record behind a Python `Node` object: its label and the three edge
lists (`edges`, `incident_edges`, `outgoing_edges`), holding edge ids. -/
structure NodeObj where
  label : String
  edges : List Nat
  incident_edges : List Nat
  outgoing_edges : List Nat
  deriving DecidableEq, Repr

/-- The record behind a Python `Edge`/`DirectedEdge` object.  `tail` and `head`
are node ids (mutable: contraction retargets them), `directed` tells which of
the two classes was instantiated. -/
structure EdgeObj where
  tail : Nat
  head : Nat
  label : Option String
  directed : Bool
  deriving DecidableEq, Repr

/-- A `Graph` object together with the heap of every node/edge object ever
allocated.  `nodes` and `edges` are the graph's own id lists; `nextNode` and
`nextEdge` allocate fresh ids. -/
@[ext]
structure Graph where
  nodeObj : Nat → NodeObj
  edgeObj : Nat → EdgeObj
  nodes : List Nat
  edges : List Nat
  nextNode : Nat
  nextEdge : Nat

def Graph.setNode (st : Graph) (n : Nat) (o : NodeObj) : Graph :=
  { st with nodeObj := fun m => if m = n then o else st.nodeObj m }

def Graph.setEdge (st : Graph) (e : Nat) (o : EdgeObj) : Graph :=
  { st with edgeObj := fun m => if m = e then o else st.edgeObj m }

/-- Python `list.remove`: drop the first occurrence, `none` when the element is
absent (where Python raises `ValueError`). -/
def removeFirst : List Nat → Nat → Option (List Nat)
  | [], _ => none
  | x :: xs, a => if x = a then some xs else (removeFirst xs a).map (fun l => x :: l)

/-- Python dict lookup on an association list (first binding wins; our dicts
only ever bind a key once). -/
def lookupA : List (Nat × Nat) → Nat → Option Nat
  | [], _ => none
  | (k, v) :: ps, a => if k = a then some v else lookupA ps a

/-- `Node.add_edge` (primitives.py:19-37): append to `self.edges`, raise
`GraphException` when the edge does not reference the node (the spec's
`InvariantViolationError`), then file the edge in the directional views —
an undirected edge goes in both. -/
def Node.add_edge (st : Graph) (n e : Nat) : Res Graph :=
  let no := st.nodeObj n
  let st := st.setNode n { no with edges := no.edges ++ [e] }
  let eo := st.edgeObj e
  if n = eo.head ∨ n = eo.tail then
    if eo.directed then
      if eo.head = n then
        let no := st.nodeObj n
        Res.ok (st.setNode n { no with incident_edges := no.incident_edges ++ [e] })
      else
        let no := st.nodeObj n
        Res.ok (st.setNode n { no with outgoing_edges := no.outgoing_edges ++ [e] })
  else
    let no := st.nodeObj n
    Res.ok (st.setNode n
      { no with incident_edges := no.incident_edges ++ [e],
                outgoing_edges := no.outgoing_edges ++ [e] })
  else Res.err .invariantViolation

/-- `Node.remove_edge` (primitives.py:39-55): `list.remove` from `self.edges`
(`ValueError` when absent), then from the appropriate directional views; a
directed edge referencing the node as neither head nor tail falls through
silently. -/
def Node.remove_edge (st : Graph) (n e : Nat) : Res Graph :=
  match removeFirst (st.nodeObj n).edges e with
  | none => Res.err .valueError
  | some l =>
    let st := st.setNode n { st.nodeObj n with edges := l }
    let eo := st.edgeObj e
    if eo.directed then
      if eo.head = n then
        match removeFirst (st.nodeObj n).incident_edges e with
        | none => Res.err .valueError
        | some li => Res.ok (st.setNode n { st.nodeObj n with incident_edges := li })
      else if eo.tail = n then
        match removeFirst (st.nodeObj n).outgoing_edges e with
        | none => Res.err .valueError
        | some lo => Res.ok (st.setNode n { st.nodeObj n with outgoing_edges := lo })
      else Res.ok st
    else
      match removeFirst (st.nodeObj n).incident_edges e with
      | none => Res.err .valueError
      | some li =>
        let st := st.setNode n { st.nodeObj n with incident_edges := li }
        match removeFirst (st.nodeObj n).outgoing_edges e with
        | none => Res.err .valueError
        | some lo => Res.ok (st.setNode n { st.nodeObj n with outgoing_edges := lo })

/-- `Edge.get_other_node` (primitives.py:80-86).  The `DirectedEdge` class does
not define this method, so calling it on a directed edge is Python's
`AttributeError`; an undirected edge referencing neither endpoint raises
`GraphException` (the spec's `InvariantViolationError`). -/
def Edge.get_other_node (st : Graph) (e n : Nat) : Res Nat :=
  let eo := st.edgeObj e
  if eo.directed then Res.err .attributeError
  else if eo.tail = n then Res.ok eo.head
  else if eo.head = n then Res.ok eo.tail
  else Res.err .invariantViolation

/-- `Edge.delete` (primitives.py:88-90): deregister from the tail's lists, then
from the head's. -/
def Edge.delete (st : Graph) (e : Nat) : Res Graph :=
  Res.bind (Node.remove_edge st (st.edgeObj e).tail e) fun st' =>
    Node.remove_edge st' (st'.edgeObj e).head e

/-- `Graph.remove_edge` (primitives.py:141-150): remove from the graph's edge
list and run `edge.delete()`, converting any `ValueError` into
`GraphException` (the spec's `NotFoundError`). -/
def Graph.remove_edge (st : Graph) (e : Nat) : Res Graph :=
  match removeFirst st.edges e with
  | none => Res.err .notFound
  | some l =>
    match Edge.delete { st with edges := l } e with
    | .ok st' => .ok st'
    | .err .valueError => .err .notFound
    | .err x => .err x
    | .nofuel => .nofuel

/-- `Graph.remove_node` (primitives.py:122-126): `list.remove` on the node
list, `ValueError` converted to `GraphException` (= `NotFoundError`).  Note:
no cascade to incident edges. -/
def Graph.remove_node (st : Graph) (n : Nat) : Res Graph :=
  match removeFirst st.nodes n with
  | none => Res.err .notFound
  | some l => Res.ok { st with nodes := l }

def Graph.labels (st : Graph) : List String :=
  st.nodes.map fun i => (st.nodeObj i).label

/-- `Graph.add_node_by_label` (primitives.py:114-120): raise `GraphException`
(the spec's `DuplicateLabelError`) when the label is taken, otherwise allocate
and register a fresh node and return it. -/
def Graph.add_node_by_label (st : Graph) (l : String) : Res (Graph × Nat) :=
  if l ∈ st.labels then Res.err .duplicateLabel
  else
    let i := st.nextNode
    let st := st.setNode i { label := l, edges := [], incident_edges := [], outgoing_edges := [] }
    Res.ok ({ st with nodes := st.nodes ++ [i], nextNode := i + 1 }, i)

/-- `Graph.get_node_by_label` (primitives.py:152-159): first node with the
label, `GraphException` (= `NotFoundError`) when there is none. -/
def Graph.get_node_by_label (st : Graph) (l : String) : Res Nat :=
  match st.nodes.find? (fun i => (st.nodeObj i).label == l) with
  | some i => Res.ok i
  | none => Res.err .notFound

/-- `Graph.add_edge_by_label` (primitives.py:128-139): check both labels exist
(`GraphException` = `NotFoundError`), construct an `Edge`/`DirectedEdge` —
whose constructor registers it on both endpoints — and append it to the
graph's edge list. -/
def Graph.add_edge_by_label (st : Graph) (tail_label head_label : String)
    (edge_label : Option String) (directed : Bool) : Res (Graph × Nat) :=
  if tail_label ∈ st.labels then
    if head_label ∈ st.labels then
      Res.bind (st.get_node_by_label tail_label) fun t =>
      Res.bind (st.get_node_by_label head_label) fun h =>
      let e := st.nextEdge
      let st := { st.setEdge e { tail := t, head := h, label := edge_label, directed := directed }
                  with nextEdge := e + 1 }
      Res.bind (Node.add_edge st t e) fun st =>
      Res.bind (Node.add_edge st h e) fun st =>
      Res.ok ({ st with edges := st.edges ++ [e] }, e)
    else Res.err .notFound
  else Res.err .notFound

/-! ## Breadth-first search (primitives.py:161-233)

The source initialises `frontier`, `explored_list`, `explored` and
`node_layer`, but **never initialises `edge_to_parent`**, which it assigns at
line 193 and returns at line 197.  In Python, `edge_to_parent[other_node] =
edge` on the unbound name — and likewise the final `return` — raises
`NameError`.  The embedding keeps the mutation order of the source; the
mutations preceding a raise are discarded with the exception. -/

/-- The `for edge in node.edges:` body of the BFS while-loop
(primitives.py:184-195).  For each edge, `get_other_node` is called (an
`AttributeError` for a `DirectedEdge`); a not-yet-explored other node is
appended to the frontier and marked, and then `edge_to_parent[other_node] =
edge` raises `NameError` because `edge_to_parent` was never bound. -/
def bfsEdgeLoop (st : Graph) (node layer : Nat) (es : List Nat)
    (frontier explored : List Nat) (node_layer : List (Nat × Nat)) :
    Res (List Nat × List Nat × List (Nat × Nat)) :=
  match es with
  | [] => Res.ok (frontier, explored, node_layer)
  | e :: rest =>
    Res.bind (Edge.get_other_node st e node) fun other =>
    if other ∈ explored then
      bfsEdgeLoop st node layer rest frontier explored node_layer
    else
      -- frontier.append(other_node); explored[other_node] = True;
      -- node_layer[other_node] = node_layer[node] + 1;
      -- edge_to_parent[other_node] = edge   ← NameError: never initialised
      Res.err .nameError

/-- The `while frontier and not found:` loop of `breadth_first_search`
(primitives.py:177-195).  Pops the leftmost frontier node, records it with its
layer (`node_layer[node]`, a `KeyError` if absent — never happens), sets
`found` on hitting the target, and scans the node's edges. -/
def bfsLoop (fuel : Nat) (st : Graph) (endNode : Option Nat)
    (frontier : List Nat) (explored_list : List (Nat × Nat))
    (explored : List Nat) (node_layer : List (Nat × Nat)) (found : Bool) :
    Res (Bool × List (Nat × Nat)) :=
  match fuel with
  | 0 => Res.nofuel
  | fuel + 1 =>
    match frontier, found with
    | node :: rest, false =>
      match lookupA node_layer node with
      | none => Res.err .keyError
      | some layer =>
        let explored_list := explored_list ++ [(node, layer)]
        let found := endNode == some node
        Res.bind (bfsEdgeLoop st node layer (st.nodeObj node).edges rest explored node_layer)
          fun r => bfsLoop fuel st endNode r.1 explored_list r.2.1 r.2.2 found
    | _, _ => Res.ok (found, explored_list)

/-- `Graph.breadth_first_search` (primitives.py:161-197).  The per-node
`node.explored = None` resets (lines 163-164) write an attribute that is never
read again and are not modelled.  The final
`return found, explored_list, edge_to_parent` reads the unbound name
`edge_to_parent`, so even a run whose loop finishes raises `NameError`; the
declared result type is the 3-tuple the source would return (third component:
the `edge_to_parent` dict), but `ok` is never produced. -/
def Graph.breadth_first_search (fuel : Nat) (st : Graph) (start : Nat) (endNode : Option Nat) :
    Res (Bool × List (Nat × Nat) × List (Nat × Nat)) :=
  Res.bind (bfsLoop fuel st endNode [start] [] [start] [(start, 0)] false) fun _ =>
    Res.err .nameError

/-- The backward walk of `bfs_path` (primitives.py:211-218).  An `Edge` object
is always truthy, so `while edge:` only exits through an exception: the walk
appends the edge, steps to the other node and looks up `edge_to_parent[node]`
(a `KeyError` once a node without a parent entry is reached). -/
def bfsPathWalk (fuel : Nat) (st : Graph) (etp : List (Nat × Nat))
    (node edge : Nat) (path : List Nat) : Res (List Nat) :=
  match fuel with
  | 0 => Res.nofuel
  | fuel + 1 =>
    let path := path ++ [edge]
    Res.bind (Edge.get_other_node st edge node) fun node' =>
    match lookupA etp node' with
    | none => Res.err .keyError
    | some edge' => bfsPathWalk fuel st etp node' edge' path

/-- `Graph.bfs_path` (primitives.py:199-220): run the traversal, then walk the
`edge_to_parent` links backward from `end_node` and reverse.  Since
`breadth_first_search` always raises, the walk is dead code, but it is
modelled in full. -/
def Graph.bfs_path (fuel : Nat) (st : Graph) (start_node end_node : Nat) : Res (List Nat) :=
  Res.bind (Graph.breadth_first_search fuel st start_node (some end_node)) fun r =>
  match lookupA r.2.2 end_node with
  | none => Res.err .keyError
  | some e => Res.bind (bfsPathWalk fuel st r.2.2 end_node e []) fun p => Res.ok p.reverse

/-- The `for node in self.nodes:` loop of `bfs_connected_regions`
(primitives.py:225-231).  A node in no discovered region seeds a BFS; the
source unpacks the BFS result — a 3-tuple — into two names
(`_, new_explored = ...`), which would raise `ValueError`; the call itself
raises `NameError` first. -/
def bfsRegionsLoop (fuel : Nat) (st : Graph) (ns : List Nat) (regions : List (List Nat)) :
    Res (List (List Nat)) :=
  match ns with
  | [] => Res.ok regions
  | n :: rest =>
    if n ∈ regions.flatten then bfsRegionsLoop fuel st rest regions
    else
      Res.bind (Graph.breadth_first_search fuel st n none) fun _ =>
        Res.err .valueError

/-- `Graph.bfs_connected_regions` (primitives.py:222-233). -/
def Graph.bfs_connected_regions (fuel : Nat) (st : Graph) : Res (List (List Nat)) :=
  bfsRegionsLoop fuel st st.nodes []

/-! ## Random contraction (random_contraction.py) -/

/-- `_get_random_edge` (random_contraction.py:8-12):
`index = int(random() * len(graph.edges)); graph.edges[index]`.  The random
draw is modelled by its exact value `random() = r.1 / r.2`, a rational in
`[0, 1)` (a Python float is a dyadic rational), for which `int` truncation of
`r * len` is exactly the floor division `r.1 * len / r.2`.  On an empty edge
list the index is `0` and the subscript raises `IndexError`. -/
def _get_random_edge (st : Graph) (r : Nat × Nat) : Res Nat :=
  let index := r.1 * st.edges.length / r.2
  match st.edges[index]? with
  | some e => Res.ok e
  | none => Res.err .indexError

/-- One iteration of the `for edge in second_node.edges:` body of
`_merge_nodes` (random_contraction.py:19-37): an edge whose endpoints are
exactly the two merged nodes is removed from the graph; otherwise the
endpoint equal to `second_node` is retargeted to `super_node`
(`AssertionError` when the edge references neither endpoint) and the edge is
registered on `super_node`'s lists. -/
def mergeEdgeStep (st : Graph) (first_node second_node e : Nat) : Res Graph :=
  let eo := st.edgeObj e
  if (eo.head = second_node ∧ eo.tail = first_node) ∨
     (eo.head = first_node ∧ eo.tail = second_node) then
    Graph.remove_edge st e
  else
    Res.bind
      (if eo.head = second_node then Res.ok (st.setEdge e { eo with head := first_node })
       else if eo.tail = second_node then Res.ok (st.setEdge e { eo with tail := first_node })
       else Res.err .assertionError) fun st' =>
    Node.add_edge st' first_node e

/-- The `for edge in second_node.edges:` loop itself.  A Python list iterator
keeps an index into the *live* list and stops as soon as the index reaches the
current length — so removing the current element shifts the remainder left and
the next element is skipped, and elements appended during iteration are
visited. -/
def mergeLoop (fuel : Nat) (st : Graph) (first_node second_node : Nat) (i : Nat) : Res Graph :=
  match fuel with
  | 0 => Res.nofuel
  | fuel + 1 =>
    match (st.nodeObj second_node).edges[i]? with
    | none => Res.ok st
    | some e =>
      Res.bind (mergeEdgeStep st first_node second_node e) fun st' =>
        mergeLoop fuel st' first_node second_node (i + 1)

/-- `_merge_nodes` (random_contraction.py:15-40): process `second_node.edges`,
then trim `second_node` from the graph. -/
def _merge_nodes (fuel : Nat) (st : Graph) (first_node second_node : Nat) : Res Graph :=
  Res.bind (mergeLoop fuel st first_node second_node 0) fun st' =>
    Graph.remove_node st' second_node

/-- The `while len(working_graph.nodes) > 2:` loop of one contraction trial
(random_contraction.py:50-52).  `ρ` is the stream of values drawn by
`random()` and `k` the number of draws consumed so far; the merged endpoints
are the picked edge's current `tail` and `head`. -/
def contractLoop (fuel : Nat) (st : Graph) (ρ : Nat → Nat × Nat) (k : Nat) : Res (Graph × Nat) :=
  match fuel with
  | 0 => Res.nofuel
  | fuel + 1 =>
    if st.nodes.length > 2 then
      Res.bind (_get_random_edge st (ρ k)) fun e =>
      Res.bind (_merge_nodes fuel st (st.edgeObj e).tail (st.edgeObj e).head) fun st' =>
      contractLoop fuel st' ρ (k + 1)
    else Res.ok (st, k)

/-- The `for i in range(iterations):` loop of
`run_random_contraction_algorithm` (random_contraction.py:47-54).
`working_graph = deepcopy(graph)` is value semantics here: every trial starts
from the same state `st0` and the original is untouched. -/
def trialsLoop (fuel : Nat) (st0 : Graph) (ρ : Nat → Nat × Nat) :
    Nat → Nat → Nat → Res Nat
  | 0, _, min_edges => Res.ok min_edges
  | n + 1, k, min_edges =>
    Res.bind (contractLoop fuel st0 ρ k) fun r =>
    let min_edges := if r.1.edges.length < min_edges then r.1.edges.length else min_edges
    trialsLoop fuel st0 ρ n r.2 min_edges

/-- `run_random_contraction_algorithm` (random_contraction.py:43-56):
`len(graph.nodes) ** 2` trials, `min_edges` seeded with the input's edge
count, each trial contracting a fresh copy of the input. -/
def run_random_contraction_algorithm (fuel : Nat) (st : Graph) (ρ : Nat → Nat × Nat) : Res Nat :=
  trialsLoop fuel st ρ (st.nodes.length ^ 2) 0 st.edges.length

/-! ## Building graphs through the label-based mutation API -/

/-- One label-based add operation (the graph-construction API the claims
quantify over). -/
inductive Op where
  | addNode : String → Op
  | addEdge : String → String → Option String → Bool → Op

/-- `Graph()`: empty graph over an empty heap. -/
def Graph.empty : Graph :=
  { nodeObj := fun _ => { label := "", edges := [], incident_edges := [], outgoing_edges := [] }
    edgeObj := fun _ => { tail := 0, head := 0, label := none, directed := false }
    nodes := []
    edges := []
    nextNode := 0
    nextEdge := 0 }

/-- Apply one add operation; a raised exception leaves the graph unchanged
(both add operations check before mutating). -/
def applyOp (st : Graph) : Op → Graph
  | .addNode l =>
    match st.add_node_by_label l with
    | .ok r => r.1
    | _ => st
  | .addEdge t h lbl d =>
    match st.add_edge_by_label t h lbl d with
    | .ok r => r.1
    | _ => st

/-- The graph reached from `Graph()` by a sequence of add operations. -/
def applyOps (ops : List Op) : Graph := ops.foldl applyOp Graph.empty

/-! ## Concrete graphs used by the test suite and the claims -/

/-- The triangle graph of `test_primitives._setup_triangle_graph`:
nodes a, b, c (ids 0, 1, 2), undirected edges a-b, b-c, c-a (ids 0, 1, 2). -/
def triangleG : Graph :=
  applyOps [.addNode "a", .addNode "b", .addNode "c",
    .addEdge "a" "b" none false, .addEdge "b" "c" none false, .addEdge "c" "a" none false]

/-- The disconnected graph of `test_bfs_connected_regions` and of concrete
scenario 3: triangle a,b,c plus edge d-e plus isolated f. -/
def regionsG : Graph :=
  applyOps [.addNode "a", .addNode "b", .addNode "c",
    .addEdge "a" "b" none false, .addEdge "b" "c" none false, .addEdge "c" "a" none false,
    .addNode "d", .addNode "e", .addEdge "d" "e" none false,
    .addNode "f"]

/-! ## C1, C2, C7: breadth-first search never returns -/

/-- C1: The claim states that for every graph and start node,
`breadth_first_search(start, end)` returns normally with the BFS guarantees.
In the source, `edge_to_parent` is assigned (line 193) and returned (line 197)
but never initialised, so every call raises `NameError`: here, concretely for
the triangle graph searched from a to c (where the tests expect
`found = True`), and in general for every graph, start, target and fuel —
the search never returns normally. -/
theorem c1_breadth_first_search_always_raises :
    Graph.breadth_first_search 100 triangleG 0 (some 2) = Res.err .nameError ∧
    ∀ (fuel : Nat) (st : Graph) (s : Nat) (e : Option Nat),
      (Graph.breadth_first_search fuel st s e).isOk = false := by
  refine ⟨by decide, fun fuel st s e => ?_⟩
  unfold Graph.breadth_first_search
  cases bfsLoop fuel st e [s] [] [s] [(s, 0)] false <;> rfl

/-- C2: The claim states that `bfs_path(start, end)` returns the edge list of
a shortest-hop path (or raises `UnreachableError` when unreachable).  The
source calls `breadth_first_search`, which always raises `NameError` (unbound
`edge_to_parent`), so `bfs_path` never returns a path: concretely for the
triangle graph from a to c (a reachable pair), and in general for every
graph and node pair. -/
theorem c2_bfs_path_always_raises :
    Graph.bfs_path 100 triangleG 0 2 = Res.err .nameError ∧
    ∀ (fuel : Nat) (st : Graph) (s t : Nat), (Graph.bfs_path fuel st s t).isOk = false := by
  refine ⟨by decide, fun fuel st s t => ?_⟩
  unfold Graph.bfs_path Graph.breadth_first_search
  cases bfsLoop fuel st (some t) [s] [] [s] [(s, 0)] false <;> rfl

/-- C7: The claim states that `connected_regions()` partitions the node set
into maximal regions (3 regions on the triangle + d-e + f graph).  The source
calls `breadth_first_search`, which raises `NameError` before the 3-tuple
result could even fail to unpack into `_, new_explored` (`ValueError`), so on
every graph with at least one node the call raises instead of returning a
partition: concretely on the scenario-3 graph, and in general. -/
theorem c7_bfs_connected_regions_always_raises :
    Graph.bfs_connected_regions 100 regionsG = Res.err .nameError ∧
    ∀ (fuel : Nat) (st : Graph),
      st.nodes = [] ∨ (Graph.bfs_connected_regions fuel st).isOk = false := by
  refine ⟨by decide, fun fuel st => ?_⟩
  unfold Graph.bfs_connected_regions
  cases h : st.nodes with
  | nil => exact Or.inl rfl
  | cons n rest =>
    refine Or.inr ?_
    show (bfsRegionsLoop fuel st (n :: rest) []).isOk = false
    unfold bfsRegionsLoop
    simp only [List.flatten_nil, List.not_mem_nil, if_neg, if_false]
    unfold Graph.breadth_first_search
    cases bfsLoop fuel st none [n] [] [n] [(n, 0)] false <;> rfl

/-! ## C3, C4, C10: the contraction loop's iterate-while-mutating bug

`_merge_nodes` iterates `for edge in second_node.edges:` while the self-loop
branch removes the current edge from that very list, shifting the remainder
left — the element after every removed edge is skipped. -/

/-- Connected-component counting for stating claims about disconnected inputs
(not part of the source): fold the edges through a union-find whose classes
are representative-valued functions, then count distinct representatives among
the graph's nodes. -/
def ufMerge (f : Nat → Nat) (a b : Nat) : Nat → Nat :=
  fun x => if f x = f a then f b else f x

def ufOfEdges (st : Graph) : Nat → Nat :=
  st.edges.foldl (fun f e => ufMerge f (st.edgeObj e).tail (st.edgeObj e).head) id

def componentCount (st : Graph) : Nat :=
  ((st.nodes.map (ufOfEdges st)).dedup).length

/-- Two nodes a (id 0), b (id 1) and two parallel undirected edges
a-b (ids 0 and 1): the configuration `_merge_nodes` is claimed to handle. -/
def parallelG : Graph :=
  applyOps [.addNode "a", .addNode "b",
    .addEdge "a" "b" none false, .addEdge "a" "b" none false]

/-- C3: The claim states that `_merge_nodes` deletes every edge both of whose
endpoints resolve to the surviving node, including parallel edges between the
two merged nodes.  Merging a and b in the two-parallel-edge graph removes
edge 0, which shifts `b.edges` left and skips edge 1: the result has node b
removed (`nodes = [0]`) but edge 1 still in the graph's edge list with its
endpoints still (a, b) — a self-loop-resolving edge that was neither deleted
nor retargeted, and which any later edge count would include. -/
theorem c3_merge_nodes_skips_parallel_self_loop :
    (Res.bind (_merge_nodes 100 parallelG 0 1) fun st' =>
      Res.ok (st'.nodes, st'.edges, (st'.edgeObj 1).tail, (st'.edgeObj 1).head))
    = Res.ok ([0], [1], 0, 1) := by decide

/-- Four nodes w (0), x (1), y (2), z (3); undirected edges x-y (0),
z-y (1), w-x (2): a connected multigraph. -/
def crashG : Graph :=
  applyOps [.addNode "w", .addNode "x", .addNode "y", .addNode "z",
    .addEdge "x" "y" none false, .addEdge "z" "y" none false,
    .addEdge "w" "x" none false]

/-- C4: The claim states no contraction trial ever raises an error.  On the
connected 4-node graph `crashG`, the random stream that always draws 0 makes
the first trial (of the 16) pick edge x-y, whose removal skips the stale edge
z-y in `y.edges`; the next pick is that stale edge z-y, whose merge ends with
`remove_node(y)` after y was already removed — `GraphException('Node not
found.')` (the spec's `NotFoundError`) propagates out of
`run_random_contraction_algorithm`. -/
theorem c4_contraction_trial_raises_not_found :
    componentCount crashG = 1 ∧
    run_random_contraction_algorithm 100 crashG (fun _ => (0, 1)) = Res.err .notFound := by
  constructor
  · decide
  · decide

/-- Three components: {a (0), b (1), c (2)} with undirected edges a-b (0),
a-c (1), b-a (2), b-c (3); {d (3), e (4)} with edge d-e (4); isolated f (5). -/
def threeCompG : Graph :=
  applyOps [.addNode "a", .addNode "b", .addNode "c",
    .addEdge "a" "b" none false, .addEdge "a" "c" none false,
    .addEdge "b" "a" none false, .addEdge "b" "c" none false,
    .addNode "d", .addNode "e", .addEdge "d" "e" none false,
    .addNode "f"]

/-- The random stream driving the counterexample trials on `threeCompG`:
each trial consumes four draws 0, 1/2, 0, 1/2. -/
def threeCompρ : Nat → Nat × Nat := fun k => if k % 2 = 0 then (0, 2) else (1, 2)

/-- C10 counterexample: The claim states that on every graph with more than
two connected components, **every** trial reaches an empty edge list with more
than two nodes and the call fails with an out-of-range index error.
`threeCompG` has 3 components, yet with the stream `threeCompρ` the stale
edges left behind by the skipping bug let every trial's merges delete all
three nodes of the first component while the survivors of the bidirectional
pair a-b are consumed, so the node count reaches 2 and every one of the 36
trials completes: the call returns the estimate 1 instead of failing. -/
theorem c10_counterexample_three_components_returns :
    componentCount threeCompG = 3 ∧
    run_random_contraction_algorithm 100 threeCompG threeCompρ = Res.ok 1 := by
  constructor
  · decide
  · decide

/-! ## Basic state-update lemmas -/

@[simp] theorem setNode_nodeObj_same (st : Graph) (n : Nat) (o : NodeObj) :
    (st.setNode n o).nodeObj n = o := by simp [Graph.setNode]

theorem setNode_nodeObj_other (st : Graph) (n : Nat) (o : NodeObj) (m : Nat) (h : m ≠ n) :
    (st.setNode n o).nodeObj m = st.nodeObj m := by simp [Graph.setNode, h]

@[simp] theorem setNode_edgeObj (st : Graph) (n : Nat) (o : NodeObj) :
    (st.setNode n o).edgeObj = st.edgeObj := rfl

@[simp] theorem setNode_nodes (st : Graph) (n : Nat) (o : NodeObj) :
    (st.setNode n o).nodes = st.nodes := rfl

@[simp] theorem setNode_edges (st : Graph) (n : Nat) (o : NodeObj) :
    (st.setNode n o).edges = st.edges := rfl

@[simp] theorem setNode_nextNode (st : Graph) (n : Nat) (o : NodeObj) :
    (st.setNode n o).nextNode = st.nextNode := rfl

@[simp] theorem setNode_nextEdge (st : Graph) (n : Nat) (o : NodeObj) :
    (st.setNode n o).nextEdge = st.nextEdge := rfl

@[simp] theorem setEdge_edgeObj_same (st : Graph) (e : Nat) (o : EdgeObj) :
    (st.setEdge e o).edgeObj e = o := by simp [Graph.setEdge]

theorem setEdge_edgeObj_other (st : Graph) (e : Nat) (o : EdgeObj) (m : Nat) (h : m ≠ e) :
    (st.setEdge e o).edgeObj m = st.edgeObj m := by simp [Graph.setEdge, h]

@[simp] theorem setEdge_nodeObj (st : Graph) (e : Nat) (o : EdgeObj) :
    (st.setEdge e o).nodeObj = st.nodeObj := rfl

@[simp] theorem setEdge_nodes (st : Graph) (e : Nat) (o : EdgeObj) :
    (st.setEdge e o).nodes = st.nodes := rfl

@[simp] theorem setEdge_edges (st : Graph) (e : Nat) (o : EdgeObj) :
    (st.setEdge e o).edges = st.edges := rfl

theorem setNode_setNode (st : Graph) (n : Nat) (o1 o2 : NodeObj) :
    (st.setNode n o1).setNode n o2 = st.setNode n o2 := by
  ext m <;> simp [Graph.setNode]
  by_cases h : m = n <;> simp [h]

/-- The total effect of `Node.add_edge` when the membership check passes:
one record update on node `n`. -/
theorem add_edge_eq (st : Graph) (n e : Nat)
    (h : n = (st.edgeObj e).head ∨ n = (st.edgeObj e).tail) :
    Node.add_edge st n e = Res.ok (st.setNode n
      { label := (st.nodeObj n).label
        edges := (st.nodeObj n).edges ++ [e]
        incident_edges := (st.nodeObj n).incident_edges ++
          (if (st.edgeObj e).directed then
            (if (st.edgeObj e).head = n then [e] else []) else [e])
        outgoing_edges := (st.nodeObj n).outgoing_edges ++
          (if (st.edgeObj e).directed then
            (if (st.edgeObj e).head = n then [] else [e]) else [e]) }) := by
  unfold Node.add_edge
  simp only [setNode_edgeObj, setNode_nodeObj_same, if_pos h]
  by_cases hd : (st.edgeObj e).directed <;>
    by_cases hh : (st.edgeObj e).head = n <;>
      simp [hd, hh, setNode_setNode]

/-! ## Well-formedness of graphs built through the label-based API -/

/-- Exact occurrence counts of a registered edge in every node's three edge
lists, as produced by `Edge.__init__`/`DirectedEdge.__init__` registration:
the node-edge membership ("symmetry") property of the spec, in its "only"
form. -/
def edgeCounts (st : Graph) (e : Nat) : Prop :=
  ∀ n : Nat,
    ((st.nodeObj n).edges.count e
      = (if n = (st.edgeObj e).tail then 1 else 0)
        + (if n = (st.edgeObj e).head then 1 else 0)) ∧
    ((st.edgeObj e).directed = true →
      (st.nodeObj n).incident_edges.count e
        = (if n = (st.edgeObj e).head then
            (if (st.edgeObj e).tail = (st.edgeObj e).head then 2 else 1) else 0) ∧
      (st.nodeObj n).outgoing_edges.count e
        = (if n = (st.edgeObj e).tail ∧ (st.edgeObj e).tail ≠ (st.edgeObj e).head
            then 1 else 0)) ∧
    ((st.edgeObj e).directed = false →
      (st.nodeObj n).incident_edges.count e
        = (if n = (st.edgeObj e).tail then 1 else 0)
          + (if n = (st.edgeObj e).head then 1 else 0) ∧
      (st.nodeObj n).outgoing_edges.count e
        = (if n = (st.edgeObj e).tail then 1 else 0)
          + (if n = (st.edgeObj e).head then 1 else 0))

/-- Invariant of every graph reachable through `add_node_by_label` /
`add_edge_by_label`: fresh-id discipline, duplicate-free collections, unique
labels, node edge lists registered in the graph, endpoints registered in the
node collection, and the exact registration counts of every edge. -/
structure WF (st : Graph) : Prop where
  nodes_lt : ∀ n ∈ st.nodes, n < st.nextNode
  edges_lt : ∀ e ∈ st.edges, e < st.nextEdge
  nodes_nodup : st.nodes.Nodup
  edges_nodup : st.edges.Nodup
  labels_nodup : st.labels.Nodup
  lists_lt : ∀ n x : Nat,
    (x ∈ (st.nodeObj n).edges ∨ x ∈ (st.nodeObj n).incident_edges ∨
      x ∈ (st.nodeObj n).outgoing_edges) → x < st.nextEdge
  lists_sub : ∀ n : Nat, ∀ x ∈ (st.nodeObj n).edges, x ∈ st.edges
  endpoints_lt : ∀ e ∈ st.edges,
    (st.edgeObj e).tail < st.nextNode ∧ (st.edgeObj e).head < st.nextNode
  endpoints_mem : ∀ e ∈ st.edges,
    (st.edgeObj e).tail ∈ st.nodes ∧ (st.edgeObj e).head ∈ st.nodes
  counts : ∀ e ∈ st.edges, edgeCounts st e

theorem WF_empty : WF Graph.empty := by
  constructor <;> simp [Graph.empty, Graph.labels]

/-- The state after a successful `add_node_by_label`. -/
def afterAddNode (st : Graph) (l : String) : Graph :=
  { st.setNode st.nextNode
      { label := l, edges := [], incident_edges := [], outgoing_edges := [] } with
        nodes := st.nodes ++ [st.nextNode], nextNode := st.nextNode + 1 }

@[simp] theorem afterAddNode_nodes (st : Graph) (l : String) :
    (afterAddNode st l).nodes = st.nodes ++ [st.nextNode] := rfl

@[simp] theorem afterAddNode_edges (st : Graph) (l : String) :
    (afterAddNode st l).edges = st.edges := rfl

@[simp] theorem afterAddNode_nextNode (st : Graph) (l : String) :
    (afterAddNode st l).nextNode = st.nextNode + 1 := rfl

@[simp] theorem afterAddNode_nextEdge (st : Graph) (l : String) :
    (afterAddNode st l).nextEdge = st.nextEdge := rfl

@[simp] theorem afterAddNode_edgeObj (st : Graph) (l : String) :
    (afterAddNode st l).edgeObj = st.edgeObj := rfl

@[simp] theorem afterAddNode_nodeObj_same (st : Graph) (l : String) :
    (afterAddNode st l).nodeObj st.nextNode
      = { label := l, edges := [], incident_edges := [], outgoing_edges := [] } := by
  simp [afterAddNode, Graph.setNode]

theorem afterAddNode_nodeObj_other (st : Graph) (l : String) (m : Nat)
    (h : m ≠ st.nextNode) : (afterAddNode st l).nodeObj m = st.nodeObj m := by
  simp [afterAddNode, Graph.setNode, h]

theorem add_node_by_label_ok (st : Graph) (l : String) (h : l ∉ st.labels) :
    st.add_node_by_label l = Res.ok (afterAddNode st l, st.nextNode) := by
  simp [Graph.add_node_by_label, h, afterAddNode]

theorem labels_addNode (st : Graph) (l : String) (wf : WF st) :
    (afterAddNode st l).labels = st.labels ++ [l] := by
  unfold Graph.labels
  rw [afterAddNode_nodes, List.map_append]
  congr 1
  · refine List.map_congr_left fun j hj => ?_
    have : j ≠ st.nextNode := Nat.ne_of_lt (wf.nodes_lt j hj)
    rw [afterAddNode_nodeObj_other st _ j this]
  · simp

theorem WF_addNode (st : Graph) (l : String) (wf : WF st) :
    WF (applyOp st (.addNode l)) := by
  by_cases h : l ∈ st.labels
  · simpa [applyOp, Graph.add_node_by_label, h] using wf
  · have hok := add_node_by_label_ok st l h
    simp only [applyOp, hok]
    have hfresh : st.nextNode ∉ st.nodes := fun hmem =>
      absurd (wf.nodes_lt _ hmem) (lt_irrefl _)
    constructor
    · intro n hn
      rw [afterAddNode_nodes] at hn
      rw [afterAddNode_nextNode]
      rcases List.mem_append.mp hn with hn | hn
      · exact Nat.lt_succ_of_lt (wf.nodes_lt n hn)
      · simp at hn; omega
    · intro e he
      rw [afterAddNode_edges] at he
      rw [afterAddNode_nextEdge]
      exact wf.edges_lt e he
    · rw [afterAddNode_nodes, List.nodup_append]
      exact ⟨wf.nodes_nodup, List.nodup_singleton _, by
        simpa [List.disjoint_singleton] using hfresh⟩
    · show st.edges.Nodup
      exact wf.edges_nodup
    · rw [labels_addNode st l wf, List.nodup_append]
      exact ⟨wf.labels_nodup, List.nodup_singleton _, by
        simpa [List.disjoint_singleton] using h⟩
    · intro n x hx
      rw [afterAddNode_nextEdge]
      by_cases hn : n = st.nextNode
      · subst hn; rw [afterAddNode_nodeObj_same] at hx; simp at hx
      · rw [afterAddNode_nodeObj_other st _ n hn] at hx
        exact wf.lists_lt n x hx
    · intro n x hx
      rw [afterAddNode_edges]
      by_cases hn : n = st.nextNode
      · subst hn; rw [afterAddNode_nodeObj_same] at hx; simp at hx
      · rw [afterAddNode_nodeObj_other st _ n hn] at hx
        exact wf.lists_sub n x hx
    · intro e he
      rw [afterAddNode_edges] at he
      rw [afterAddNode_edgeObj, afterAddNode_nextNode]
      exact ⟨Nat.lt_succ_of_lt (wf.endpoints_lt e he).1,
        Nat.lt_succ_of_lt (wf.endpoints_lt e he).2⟩
    · intro e he
      rw [afterAddNode_edges] at he
      rw [afterAddNode_edgeObj, afterAddNode_nodes]
      exact ⟨List.mem_append_left _ (wf.endpoints_mem e he).1,
        List.mem_append_left _ (wf.endpoints_mem e he).2⟩
    · intro e he
      rw [afterAddNode_edges] at he
      intro n
      have htail : (st.edgeObj e).tail ≠ st.nextNode :=
        Nat.ne_of_lt (wf.endpoints_lt e he).1
      have hhead : (st.edgeObj e).head ≠ st.nextNode :=
        Nat.ne_of_lt (wf.endpoints_lt e he).2
      rw [afterAddNode_edgeObj]
      by_cases hn : n = st.nextNode
      · subst hn
        rw [afterAddNode_nodeObj_same]
        refine ⟨by simp [Ne.symm htail, Ne.symm hhead], fun _ => ⟨?_, ?_⟩, fun _ => ⟨?_, ?_⟩⟩ <;>
          simp [Ne.symm htail, Ne.symm hhead]
      · rw [afterAddNode_nodeObj_other st _ n hn]
        exact wf.counts e he n

theorem get_node_by_label_ok_of_mem (st : Graph) (l : String) (h : l ∈ st.labels) :
    ∃ i, st.get_node_by_label l = Res.ok i ∧ i ∈ st.nodes ∧ (st.nodeObj i).label = l := by
  unfold Graph.get_node_by_label
  cases hf : st.nodes.find? (fun i => (st.nodeObj i).label == l) with
  | none =>
    exfalso
    obtain ⟨j, hj, hl⟩ := List.mem_map.mp h
    have := List.find?_eq_none.mp hf j hj
    simp [hl] at this
  | some i =>
    refine ⟨i, rfl, List.mem_of_find?_eq_some hf, ?_⟩
    have := List.find?_some hf
    simpa using this

/-- The node record after the `Edge`/`DirectedEdge` constructor registered the
new edge id `en` (with endpoints `t0`, `h0`, directedness `d`) on both
endpoints: what node `n`'s lists become. -/
def regLists (no : NodeObj) (t0 h0 en : Nat) (d : Bool) (n : Nat) : NodeObj :=
  { label := no.label
    edges := no.edges ++ (if n = t0 then [en] else []) ++ (if n = h0 then [en] else [])
    incident_edges := no.incident_edges ++
      (if n = t0 then (if d then (if h0 = t0 then [en] else []) else [en]) else []) ++
      (if n = h0 then [en] else [])
    outgoing_edges := no.outgoing_edges ++
      (if n = t0 then (if d then (if h0 = t0 then [] else [en]) else [en]) else []) ++
      (if n = h0 then (if d then [] else [en]) else []) }

theorem add_edge_by_label_ok (st : Graph) (tl hl : String) (lbl : Option String) (d : Bool)
    (t0 h0 : Nat) (htl : tl ∈ st.labels) (hhl : hl ∈ st.labels)
    (ht0 : st.get_node_by_label tl = Res.ok t0)
    (hh0 : st.get_node_by_label hl = Res.ok h0) :
    ∃ st', st.add_edge_by_label tl hl lbl d = Res.ok (st', st.nextEdge) ∧
      st'.nodes = st.nodes ∧
      st'.edges = st.edges ++ [st.nextEdge] ∧
      st'.nextNode = st.nextNode ∧
      st'.nextEdge = st.nextEdge + 1 ∧
      st'.edgeObj st.nextEdge = { tail := t0, head := h0, label := lbl, directed := d } ∧
      (∀ m, m ≠ st.nextEdge → st'.edgeObj m = st.edgeObj m) ∧
      (∀ n, st'.nodeObj n = regLists (st.nodeObj n) t0 h0 st.nextEdge d n) := by
  unfold Graph.add_edge_by_label
  rw [if_pos htl, if_pos hhl, ht0]
  simp only [Res.bind_ok]
  rw [hh0]
  simp only [Res.bind_ok]
  rw [add_edge_eq]
  case h => right; simp [Graph.setEdge]
  simp only [Res.bind_ok]
  rw [add_edge_eq]
  case h => left; simp [Graph.setEdge, Graph.setNode]
  simp only [Res.bind_ok]
  refine ⟨_, rfl, by simp [Graph.setNode, Graph.setEdge], by simp [Graph.setNode, Graph.setEdge],
    by simp [Graph.setNode, Graph.setEdge], by simp [Graph.setNode, Graph.setEdge],
    by simp [Graph.setNode, Graph.setEdge], ?_, ?_⟩
  · intro m hm
    simp [Graph.setNode, Graph.setEdge, hm]
  · intro n
    by_cases hnh : n = h0 <;> by_cases hnt : n = t0 <;>
      by_cases hth : h0 = t0 <;> by_cases hd : d <;>
        simp_all [Graph.setNode, Graph.setEdge, regLists]

theorem regLists_mem (no : NodeObj) (t0 h0 en : Nat) (d : Bool) (n x : Nat)
    (hx : x ∈ (regLists no t0 h0 en d n).edges ∨
      x ∈ (regLists no t0 h0 en d n).incident_edges ∨
      x ∈ (regLists no t0 h0 en d n).outgoing_edges) :
    (x ∈ no.edges ∨ x ∈ no.incident_edges ∨ x ∈ no.outgoing_edges) ∨ x = en := by
  simp only [regLists, List.mem_append] at hx
  split_ifs at hx <;> simp_all <;> tauto

theorem regLists_edges_mem (no : NodeObj) (t0 h0 en : Nat) (d : Bool) (n x : Nat)
    (hx : x ∈ (regLists no t0 h0 en d n).edges) : x ∈ no.edges ∨ x = en := by
  simp only [regLists, List.mem_append] at hx
  split_ifs at hx <;> simp_all

theorem count_ite_nil (c : Prop) [Decidable c] (en : Nat) :
    (if c then [en] else []).count en = if c then 1 else 0 := by
  split_ifs <;> simp

theorem regLists_counts (no : NodeObj) (t0 h0 en : Nat) (d : Bool) (n : Nat)
    (h1 : no.edges.count en = 0) (h2 : no.incident_edges.count en = 0)
    (h3 : no.outgoing_edges.count en = 0) :
    (regLists no t0 h0 en d n).edges.count en
        = (if n = t0 then 1 else 0) + (if n = h0 then 1 else 0) ∧
    (d = true →
      (regLists no t0 h0 en d n).incident_edges.count en
          = (if n = h0 then (if t0 = h0 then 2 else 1) else 0) ∧
      (regLists no t0 h0 en d n).outgoing_edges.count en
          = (if n = t0 ∧ t0 ≠ h0 then 1 else 0)) ∧
    (d = false →
      (regLists no t0 h0 en d n).incident_edges.count en
          = (if n = t0 then 1 else 0) + (if n = h0 then 1 else 0) ∧
      (regLists no t0 h0 en d n).outgoing_edges.count en
          = (if n = t0 then 1 else 0) + (if n = h0 then 1 else 0)) := by
  unfold regLists
  simp only [List.count_append, h1, h2, h3, Nat.zero_add]
  refine ⟨by rw [count_ite_nil, count_ite_nil], fun hd => ⟨?_, ?_⟩, fun hd => ⟨?_, ?_⟩⟩ <;>
    subst hd <;>
      by_cases hnt : n = t0 <;> by_cases hnh : n = h0 <;>
        by_cases hth : h0 = t0 <;>
          simp_all [count_ite_nil, eq_comm] <;> omega

theorem WF_addEdge (st : Graph) (tl hl : String) (lbl : Option String) (d : Bool)
    (wf : WF st) : WF (applyOp st (.addEdge tl hl lbl d)) := by
  by_cases htl : tl ∈ st.labels
  swap
  · simpa [applyOp, Graph.add_edge_by_label, htl] using wf
  by_cases hhl : hl ∈ st.labels
  swap
  · simpa [applyOp, Graph.add_edge_by_label, htl, hhl] using wf
  obtain ⟨t0, ht0, ht0mem, _⟩ := get_node_by_label_ok_of_mem st tl htl
  obtain ⟨h0, hh0, hh0mem, _⟩ := get_node_by_label_ok_of_mem st hl hhl
  obtain ⟨st', hok, hnodes, hedges, hnN, hnE, heobj, heobj', hnobj⟩ :=
    add_edge_by_label_ok st tl hl lbl d t0 h0 htl hhl ht0 hh0
  simp only [applyOp, hok]
  have ht0lt : t0 < st.nextNode := wf.nodes_lt _ ht0mem
  have hh0lt : h0 < st.nextNode := wf.nodes_lt _ hh0mem
  have hfresh : st.nextEdge ∉ st.edges := fun hmem =>
    absurd (wf.edges_lt _ hmem) (lt_irrefl _)
  have hlabels : st'.labels = st.labels := by
    unfold Graph.labels
    rw [hnodes]
    exact List.map_congr_left fun j _ => by rw [hnobj]; rfl
  constructor
  · intro n hn
    rw [hnodes] at hn
    rw [hnN]
    exact wf.nodes_lt n hn
  · intro e he
    rw [hedges] at he
    rw [hnE]
    rcases List.mem_append.mp he with he | he
    · exact Nat.lt_succ_of_lt (wf.edges_lt e he)
    · simp at he; omega
  · rw [hnodes]; exact wf.nodes_nodup
  · rw [hedges, List.nodup_append]
    exact ⟨wf.edges_nodup, List.nodup_singleton _, by
      simpa [List.disjoint_singleton] using hfresh⟩
  · rw [hlabels]; exact wf.labels_nodup
  · intro n x hx
    rw [hnobj] at hx
    rw [hnE]
    rcases regLists_mem _ _ _ _ _ _ _ hx with hx | hx
    · exact Nat.lt_succ_of_lt (wf.lists_lt n x hx)
    · omega
  · intro n x hx
    rw [hnobj] at hx
    rw [hedges]
    rcases regLists_edges_mem _ _ _ _ _ _ _ hx with hx | hx
    · exact List.mem_append_left _ (wf.lists_sub n x hx)
    · subst hx; simp
  · intro e he
    rw [hedges] at he
    rw [hnN]
    rcases List.mem_append.mp he with he | he
    · have hne : e ≠ st.nextEdge := Nat.ne_of_lt (wf.edges_lt e he)
      rw [heobj' e hne]
      exact wf.endpoints_lt e he
    · simp at he
      subst he
      rw [heobj]
      exact ⟨ht0lt, hh0lt⟩
  · intro e he
    rw [hedges] at he
    rw [hnodes]
    rcases List.mem_append.mp he with he | he
    · have hne : e ≠ st.nextEdge := Nat.ne_of_lt (wf.edges_lt e he)
      rw [heobj' e hne]
      exact wf.endpoints_mem e he
    · simp at he
      subst he
      rw [heobj]
      exact ⟨ht0mem, hh0mem⟩
  · intro e he
    rw [hedges] at he
    rcases List.mem_append.mp he with he | he
    · -- an old edge: every list gained only the fresh id, counts unchanged
      have hne : e ≠ st.nextEdge := Nat.ne_of_lt (wf.edges_lt e he)
      intro n
      have hold := wf.counts e he n
      have hcnt : ∀ (l : List Nat) (cond : Prop) [Decidable cond],
          (l ++ (if cond then [st.nextEdge] else [])).count e = l.count e := by
        intro l cond _
        rw [List.count_append]
        split_ifs <;> simp [hne]
      rw [hnobj, heobj' e hne]
      refine ⟨?_, fun hd => ⟨?_, ?_⟩, fun hd => ⟨?_, ?_⟩⟩ <;>
        simp only [regLists] at * <;>
        rw [List.append_assoc, List.count_append]
      · have : ((if n = t0 then [st.nextEdge] else []) ++
            (if n = h0 then [st.nextEdge] else [])).count e = 0 := by
          rw [List.count_append]; split_ifs <;> simp [hne]
        rw [this, Nat.add_zero]
        exact hold.1
      · have : ((if n = t0 then (if d then (if h0 = t0 then [st.nextEdge] else [])
              else [st.nextEdge]) else []) ++
            (if n = h0 then [st.nextEdge] else [])).count e = 0 := by
          rw [List.count_append]; split_ifs <;> simp [hne]
        rw [this, Nat.add_zero]
        exact (hold.2.1 hd).1
      · have : ((if n = t0 then (if d then (if h0 = t0 then [] else [st.nextEdge])
              else [st.nextEdge]) else []) ++
            (if n = h0 then (if d then [] else [st.nextEdge]) else [])).count e = 0 := by
          rw [List.count_append]; split_ifs <;> simp [hne]
        rw [this, Nat.add_zero]
        exact (hold.2.1 hd).2
      · have : ((if n = t0 then (if d then (if h0 = t0 then [st.nextEdge] else [])
              else [st.nextEdge]) else []) ++
            (if n = h0 then [st.nextEdge] else [])).count e = 0 := by
          rw [List.count_append]; split_ifs <;> simp [hne]
        rw [this, Nat.add_zero]
        exact (hold.2.2 hd).1
      · have : ((if n = t0 then (if d then (if h0 = t0 then [] else [st.nextEdge])
              else [st.nextEdge]) else []) ++
            (if n = h0 then (if d then [] else [st.nextEdge]) else [])).count e = 0 := by
          rw [List.count_append]; split_ifs <;> simp [hne]
        rw [this, Nat.add_zero]
        exact (hold.2.2 hd).2
    · -- the new edge: the old lists do not contain it, the appends do
      simp only [List.mem_singleton] at he
      subst he
      intro n
      have hz : ∀ m : Nat, (st.nodeObj m).edges.count st.nextEdge = 0 ∧
          (st.nodeObj m).incident_edges.count st.nextEdge = 0 ∧
          (st.nodeObj m).outgoing_edges.count st.nextEdge = 0 := by
        intro m
        refine ⟨?_, ?_, ?_⟩ <;> rw [List.count_eq_zero] <;>
          exact fun hmem => absurd (wf.lists_lt m _ (by tauto)) (lt_irrefl _)
      obtain ⟨hz1, hz2, hz3⟩ := hz n
      have key := regLists_counts (st.nodeObj n) t0 h0 st.nextEdge d n hz1 hz2 hz3
      rw [hnobj, heobj]
      exact ⟨by simpa using key.1, fun hd => by simpa using key.2.1 hd,
        fun hd => by simpa using key.2.2 hd⟩

theorem WF_applyOp (st : Graph) (op : Op) (wf : WF st) : WF (applyOp st op) := by
  cases op with
  | addNode l => exact WF_addNode st l wf
  | addEdge t h lbl d => exact WF_addEdge st t h lbl d wf

theorem WF_foldl (ops : List Op) (st : Graph) (wf : WF st) :
    WF (ops.foldl applyOp st) := by
  induction ops generalizing st with
  | nil => exact wf
  | cons op rest ih => exact ih _ (WF_applyOp st op wf)

theorem WF_applyOps (ops : List Op) : WF (applyOps ops) :=
  WF_foldl ops Graph.empty WF_empty

/-! ## C9: add_node_by_label and label uniqueness -/

/-- C9: `add_node_by_label` fails with the duplicate-label error
(`GraphException`, the spec's `DuplicateLabelError`) exactly when the label is
taken — the check precedes any mutation, so a failing call leaves the graph
unchanged — and otherwise allocates, registers and returns a node carrying
that label, extending the node list by exactly that node and leaving the edge
list untouched; and every graph reachable by label-based add operations has
pairwise-distinct node labels. -/
theorem c9_add_node_by_label_spec :
    (∀ (st : Graph) (l : String), l ∈ st.labels →
      st.add_node_by_label l = Res.err .duplicateLabel) ∧
    (∀ (st : Graph) (l : String), l ∉ st.labels →
      ∃ i st', st.add_node_by_label l = Res.ok (st', i) ∧
        (st'.nodeObj i).label = l ∧
        st'.nodes = st.nodes ++ [i] ∧
        st'.edges = st.edges ∧
        st'.edgeObj = st.edgeObj) ∧
    (∀ ops : List Op, (applyOps ops).labels.Nodup) := by
  refine ⟨fun st l h => by simp [Graph.add_node_by_label, h],
    fun st l h => ⟨st.nextNode, afterAddNode st l, add_node_by_label_ok st l h,
      by simp, rfl, rfl, rfl⟩,
    fun ops => (WF_applyOps ops).labels_nodup⟩

/-- Witness for C9 at concrete inputs: adding the taken label "a" to the
triangle graph fails with the duplicate-label error, adding the fresh label
"d" succeeds, and a concrete build has distinct labels. -/
theorem c9_add_node_by_label_spec_witness :
    triangleG.add_node_by_label "a" = Res.err .duplicateLabel ∧
    (∃ i st', triangleG.add_node_by_label "d" = Res.ok (st', i) ∧
      (st'.nodeObj i).label = "d" ∧
      st'.nodes = triangleG.nodes ++ [i] ∧
      st'.edges = triangleG.edges ∧
      st'.edgeObj = triangleG.edgeObj) ∧
    (applyOps [.addNode "a", .addNode "b"]).labels.Nodup :=
  ⟨c9_add_node_by_label_spec.1 triangleG "a" (by decide),
    c9_add_node_by_label_spec.2.1 triangleG "d" (by decide),
    c9_add_node_by_label_spec.2.2 [.addNode "a", .addNode "b"]⟩

/-! ## C8: edge registration on endpoint lists -/

/-- The one-node graph with a single **directed self-loop** edge
(`add_edge_by_label('a', 'a', directed=True)`): node a = id 0, edge id 0. -/
def dirSelfLoopG : Graph :=
  applyOps [.addNode "a", .addEdge "a" "a" none true]

/-- C8 counterexample: the claim states every directed edge appears in the
outgoing view of its tail.  For a directed self-loop, `Node.add_edge` is
called twice with `edge.head == self` true both times, so the edge lands
twice in `incident_edges` and never in `outgoing_edges` — it does not appear
in the outgoing view of its tail. -/
theorem c8_counterexample_directed_self_loop :
    0 ∈ dirSelfLoopG.edges ∧
    (dirSelfLoopG.edgeObj 0).directed = true ∧
    (dirSelfLoopG.edgeObj 0).tail = 0 ∧
    (dirSelfLoopG.edgeObj 0).head = 0 ∧
    0 ∉ (dirSelfLoopG.nodeObj 0).outgoing_edges ∧
    (dirSelfLoopG.nodeObj 0).incident_edges = [0, 0] := by decide

/-- C8 (amended): after every sequence of add operations, every registered
edge e with endpoints (u, v) appears in both u's and v's `edges` collections;
an undirected edge appears in both the incoming and the outgoing view of each
endpoint; a directed edge with distinct endpoints appears in the incoming
view of its head and the outgoing view of its tail only; and a directed
self-loop appears (twice) in the incoming view of its node and never in the
outgoing view.  The exact multiplicities are given by `edgeCounts`. -/
theorem c8_amended_edge_registration (ops : List Op) (e : Nat)
    (he : e ∈ (applyOps ops).edges) :
    e ∈ ((applyOps ops).nodeObj ((applyOps ops).edgeObj e).tail).edges ∧
    e ∈ ((applyOps ops).nodeObj ((applyOps ops).edgeObj e).head).edges ∧
    (((applyOps ops).edgeObj e).directed = false →
      e ∈ ((applyOps ops).nodeObj ((applyOps ops).edgeObj e).tail).incident_edges ∧
      e ∈ ((applyOps ops).nodeObj ((applyOps ops).edgeObj e).tail).outgoing_edges ∧
      e ∈ ((applyOps ops).nodeObj ((applyOps ops).edgeObj e).head).incident_edges ∧
      e ∈ ((applyOps ops).nodeObj ((applyOps ops).edgeObj e).head).outgoing_edges) ∧
    (((applyOps ops).edgeObj e).directed = true →
      e ∈ ((applyOps ops).nodeObj ((applyOps ops).edgeObj e).head).incident_edges ∧
      (((applyOps ops).edgeObj e).tail ≠ ((applyOps ops).edgeObj e).head →
        e ∈ ((applyOps ops).nodeObj ((applyOps ops).edgeObj e).tail).outgoing_edges) ∧
      (((applyOps ops).edgeObj e).tail = ((applyOps ops).edgeObj e).head →
        e ∉ ((applyOps ops).nodeObj ((applyOps ops).edgeObj e).tail).outgoing_edges)) ∧
    edgeCounts (applyOps ops) e := by
  have wf := WF_applyOps ops
  have hc := wf.counts e he
  set st := applyOps ops
  have memt : e ∈ (st.nodeObj (st.edgeObj e).tail).edges := by
    rw [← List.count_pos_iff, (hc (st.edgeObj e).tail).1]
    simp
  have memh : e ∈ (st.nodeObj (st.edgeObj e).head).edges := by
    rw [← List.count_pos_iff, (hc (st.edgeObj e).head).1]
    simp
  refine ⟨memt, memh, fun hd => ?_, fun hd => ?_, hc⟩
  · obtain ⟨hit, hot⟩ := (hc (st.edgeObj e).tail).2.2 hd
    obtain ⟨hih, hoh⟩ := (hc (st.edgeObj e).head).2.2 hd
    refine ⟨?_, ?_, ?_, ?_⟩ <;> rw [← List.count_pos_iff] <;>
      simp only [hit, hot, hih, hoh] <;> simp
  · obtain ⟨hit, hot⟩ := (hc (st.edgeObj e).tail).2.1 hd
    obtain ⟨hih, hoh⟩ := (hc (st.edgeObj e).head).2.1 hd
    refine ⟨?_, fun hne => ?_, fun heq => ?_⟩
    · rw [← List.count_pos_iff, hih]
      split_ifs <;> omega
    · rw [← List.count_pos_iff, hot]
      simp [hne]
    · rw [← List.count_pos_iff, hot]
      simp [heq]

/-- Witness for C8 (amended) at a concrete input: the undirected edge a-b
(id 0) of the triangle graph. -/
theorem c8_amended_edge_registration_witness :
    0 ∈ triangleG.edges ∧
    0 ∈ (triangleG.nodeObj (triangleG.edgeObj 0).tail).edges ∧
    0 ∈ (triangleG.nodeObj (triangleG.edgeObj 0).head).edges :=
  ⟨by decide,
    (c8_amended_edge_registration
      [.addNode "a", .addNode "b", .addNode "c",
        .addEdge "a" "b" none false, .addEdge "b" "c" none false,
        .addEdge "c" "a" none false] 0 (by decide)).1,
    (c8_amended_edge_registration
      [.addNode "a", .addNode "b", .addNode "c",
        .addEdge "a" "b" none false, .addEdge "b" "c" none false,
        .addEdge "c" "a" none false] 0 (by decide)).2.1⟩

/-! ## Properties of `removeFirst` (Python `list.remove`) -/

theorem removeFirst_sublist : ∀ (l : List Nat) (a : Nat) (l' : List Nat),
    removeFirst l a = some l' → l'.Sublist l := by
  intro l a
  induction l with
  | nil => intro l' h; cases h
  | cons x xs ih =>
    intro l' h
    unfold removeFirst at h
    split at h
    · cases h; exact (List.sublist_cons_self x xs)
    · cases h1 : removeFirst xs a with
      | none => rw [h1] at h; cases h
      | some l'' =>
        rw [h1] at h
        cases h
        exact List.Sublist.cons₂ x (ih l'' h1)

theorem removeFirst_length : ∀ (l : List Nat) (a : Nat) (l' : List Nat),
    removeFirst l a = some l' → l'.length + 1 = l.length := by
  intro l a
  induction l with
  | nil => intro l' h; cases h
  | cons x xs ih =>
    intro l' h
    unfold removeFirst at h
    split at h
    · cases h; rfl
    · cases h1 : removeFirst xs a with
      | none => rw [h1] at h; cases h
      | some l'' =>
        rw [h1] at h
        cases h
        have := ih l'' h1
        simp only [List.length_cons]
        omega

theorem removeFirst_mem_of_some : ∀ (l : List Nat) (a : Nat) (l' : List Nat),
    removeFirst l a = some l' → a ∈ l := by
  intro l a
  induction l with
  | nil => intro l' h; cases h
  | cons x xs ih =>
    intro l' h
    unfold removeFirst at h
    split at h
    · subst x; exact List.mem_cons_self a xs
    · cases h1 : removeFirst xs a with
      | none => rw [h1] at h; cases h
      | some l'' => exact List.mem_cons_of_mem x (ih l'' h1)

/-- An element of the list that survives is unchanged; one that disappears is
the removed element. -/
theorem removeFirst_mem_or : ∀ (l : List Nat) (a : Nat) (l' : List Nat),
    removeFirst l a = some l' → ∀ x ∈ l, x ∈ l' ∨ x = a := by
  intro l a
  induction l with
  | nil => intro l' h; cases h
  | cons y xs ih =>
    intro l' h x hx
    unfold removeFirst at h
    split at h
    · subst y
      cases h
      rcases List.mem_cons.mp hx with hx | hx
      · exact Or.inr hx
      · exact Or.inl hx
    · cases h1 : removeFirst xs a with
      | none => rw [h1] at h; cases h
      | some l'' =>
        rw [h1] at h
        cases h
        rcases List.mem_cons.mp hx with hx | hx
        · exact Or.inl (List.mem_cons.mpr (Or.inl hx))
        · rcases ih l'' h1 x hx with hx' | hx'
          · exact Or.inl (List.mem_cons.mpr (Or.inr hx'))
          · exact Or.inr hx'

theorem removeFirst_not_mem_of_nodup : ∀ (l : List Nat) (a : Nat) (l' : List Nat),
    l.Nodup → removeFirst l a = some l' → a ∉ l' := by
  intro l a
  induction l with
  | nil => intro l' _ h; cases h
  | cons y xs ih =>
    intro l' hnd h
    unfold removeFirst at h
    split at h
    · subst y
      cases h
      exact (List.nodup_cons.mp hnd).1
    · cases h1 : removeFirst xs a with
      | none => rw [h1] at h; cases h
      | some l'' =>
        rw [h1] at h
        cases h
        intro hmem
        rcases List.mem_cons.mp hmem with hmem | hmem
        · exact absurd hmem.symm (by assumption)
        · exact ih l'' (List.nodup_cons.mp hnd).2 h1 hmem

/-! ## Structural effects of the contraction-chain operations -/

theorem Node.remove_edge_effect (st : Graph) (n e : Nat) (st' : Graph)
    (h : Node.remove_edge st n e = Res.ok st') :
    st'.edges = st.edges ∧ st'.nodes = st.nodes ∧ st'.edgeObj = st.edgeObj ∧
    (∀ m x, x ∈ (st'.nodeObj m).edges → x ∈ (st.nodeObj m).edges) := by
  unfold Node.remove_edge at h
  cases h1 : removeFirst (st.nodeObj n).edges e with
  | none => rw [h1] at h; cases h
  | some l =>
    rw [h1] at h
    simp only at h
    have hsub : ∀ x ∈ l, x ∈ (st.nodeObj n).edges :=
      fun x hx => (removeFirst_sublist _ _ _ h1).mem hx
    have base : ∀ m x,
        x ∈ ((st.setNode n { st.nodeObj n with edges := l }).nodeObj m).edges →
          x ∈ (st.nodeObj m).edges := by
      intro m x hx
      by_cases hm : m = n
      · subst hm; rw [setNode_nodeObj_same] at hx; exact hsub x hx
      · rwa [setNode_nodeObj_other _ _ _ _ hm] at hx
    split at h
    · -- directed
      split at h
      · -- head = n
        cases h2 : removeFirst
            (((st.setNode n { st.nodeObj n with edges := l }).nodeObj n)).incident_edges e with
        | none => rw [h2] at h; cases h
        | some li =>
          rw [h2] at h
          cases h
          refine ⟨rfl, rfl, rfl, ?_⟩
          intro m x hx
          by_cases hm : m = n
          · subst hm
            rw [setNode_nodeObj_same] at hx
            exact base _ x (by simpa using hx)
          · rw [setNode_nodeObj_other _ _ _ _ hm] at hx
            exact base m x hx
      · split at h
        · -- tail = n
          cases h2 : removeFirst
              (((st.setNode n { st.nodeObj n with edges := l }).nodeObj n)).outgoing_edges e with
          | none => rw [h2] at h; cases h
          | some lo =>
            rw [h2] at h
            cases h
            refine ⟨rfl, rfl, rfl, ?_⟩
            intro m x hx
            by_cases hm : m = n
            · subst hm
              rw [setNode_nodeObj_same] at hx
              exact base _ x (by simpa using hx)
            · rw [setNode_nodeObj_other _ _ _ _ hm] at hx
              exact base m x hx
        · -- neither: fall through
          cases h
          exact ⟨rfl, rfl, rfl, base⟩
    · -- undirected
      cases h2 : removeFirst
          (((st.setNode n { st.nodeObj n with edges := l }).nodeObj n)).incident_edges e with
      | none => rw [h2] at h; cases h
      | some li =>
        rw [h2] at h
        simp only at h
        cases h3 : removeFirst ((((st.setNode n { st.nodeObj n with edges := l }).setNode n
            { (st.setNode n { st.nodeObj n with edges := l }).nodeObj n with
                incident_edges := li }).nodeObj n)).outgoing_edges e with
        | none => rw [h3] at h; cases h
        | some lo =>
          rw [h3] at h
          cases h
          refine ⟨rfl, rfl, rfl, ?_⟩
          intro m x hx
          by_cases hm : m = n
          · subst hm
            rw [setNode_nodeObj_same] at hx
            simp only at hx
            exact base _ x (by simpa using hx)
          · rw [setNode_nodeObj_other _ _ _ _ hm,
              setNode_nodeObj_other _ _ _ _ hm] at hx
            exact base m x hx

theorem Node.add_edge_spec (st : Graph) (n e : Nat) (st' : Graph)
    (h : Node.add_edge st n e = Res.ok st') :
    st'.edges = st.edges ∧ st'.nodes = st.nodes ∧ st'.edgeObj = st.edgeObj ∧
    (∀ m x, x ∈ (st'.nodeObj m).edges → x ∈ (st.nodeObj m).edges ∨ x = e) := by
  unfold Node.add_edge at h
  simp only [] at h
  split at h
  case isTrue hc =>
    have base : ∀ m x,
        x ∈ ((st.setNode n { st.nodeObj n with edges := (st.nodeObj n).edges ++ [e] }).nodeObj
          m).edges → x ∈ (st.nodeObj m).edges ∨ x = e := by
      intro m x hx
      by_cases hm : m = n
      · subst hm
        rw [setNode_nodeObj_same] at hx
        simpa using List.mem_append.mp hx
      · rw [setNode_nodeObj_other _ _ _ _ hm] at hx
        exact Or.inl hx
    split at h
    · split at h
      · cases h
        refine ⟨rfl, rfl, rfl, ?_⟩
        intro m x hx
        by_cases hm : m = n
        · subst hm
          rw [setNode_nodeObj_same] at hx
          exact base _ x (by simpa using hx)
        · rw [setNode_nodeObj_other _ _ _ _ hm] at hx
          exact base m x hx
      · cases h
        refine ⟨rfl, rfl, rfl, ?_⟩
        intro m x hx
        by_cases hm : m = n
        · subst hm
          rw [setNode_nodeObj_same] at hx
          exact base _ x (by simpa using hx)
        · rw [setNode_nodeObj_other _ _ _ _ hm] at hx
          exact base m x hx
    · cases h
      refine ⟨rfl, rfl, rfl, ?_⟩
      intro m x hx
      by_cases hm : m = n
      · subst hm
        rw [setNode_nodeObj_same] at hx
        exact base _ x (by simpa using hx)
      · rw [setNode_nodeObj_other _ _ _ _ hm] at hx
        exact base m x hx
  case isFalse => cases h

theorem Edge.delete_spec (st : Graph) (e : Nat) (st' : Graph)
    (h : Edge.delete st e = Res.ok st') :
    st'.edges = st.edges ∧ st'.nodes = st.nodes ∧ st'.edgeObj = st.edgeObj ∧
    (∀ m x, x ∈ (st'.nodeObj m).edges → x ∈ (st.nodeObj m).edges) := by
  unfold Edge.delete at h
  cases h1 : Node.remove_edge st (st.edgeObj e).tail e with
  | ok st1 =>
    rw [h1] at h
    simp only [Res.bind_ok] at h
    obtain ⟨e1, n1, o1, l1⟩ := Node.remove_edge_effect _ _ _ _ h1
    obtain ⟨e2, n2, o2, l2⟩ := Node.remove_edge_effect _ _ _ _ h
    exact ⟨e2.trans e1, n2.trans n1, o2.trans o1, fun m x hx => l1 m x (l2 m x hx)⟩
  | err pe => rw [h1] at h; cases h
  | nofuel => rw [h1] at h; cases h

theorem Graph.remove_edge_spec (st : Graph) (e : Nat) (st' : Graph)
    (h : Graph.remove_edge st e = Res.ok st') :
    (∃ l, removeFirst st.edges e = some l ∧ st'.edges = l) ∧
    st'.nodes = st.nodes ∧ st'.edgeObj = st.edgeObj ∧
    (∀ m x, x ∈ (st'.nodeObj m).edges → x ∈ (st.nodeObj m).edges) := by
  unfold Graph.remove_edge at h
  cases h1 : removeFirst st.edges e with
  | none => rw [h1] at h; cases h
  | some l =>
    rw [h1] at h
    simp only [] at h
    cases h2 : Edge.delete { st with edges := l } e with
    | ok st1 =>
      rw [h2] at h
      cases h
      obtain ⟨e2, n2, o2, l2⟩ := Edge.delete_spec _ _ _ h2
      exact ⟨⟨l, rfl, e2⟩, n2, o2, l2⟩
    | err pe =>
      rw [h2] at h
      cases pe <;> simp only at h <;> cases h
    | nofuel => rw [h2] at h; cases h

theorem Graph.remove_node_spec (st : Graph) (n : Nat) (st' : Graph)
    (h : Graph.remove_node st n = Res.ok st') :
    (∃ l, removeFirst st.nodes n = some l ∧ st'.nodes = l) ∧
    st'.edges = st.edges ∧ st'.edgeObj = st.edgeObj ∧ st'.nodeObj = st.nodeObj := by
  unfold Graph.remove_node at h
  cases h1 : removeFirst st.nodes n with
  | none => rw [h1] at h; cases h
  | some l =>
    rw [h1] at h
    cases h
    exact ⟨⟨l, rfl, rfl⟩, rfl, rfl, rfl⟩

theorem mergeEdgeStep_edges (st : Graph) (f s e : Nat) (st₁ : Graph)
    (h : mergeEdgeStep st f s e = Res.ok st₁) :
    st₁.edges.Sublist st.edges ∧ st₁.nodes = st.nodes := by
  unfold mergeEdgeStep at h
  simp only [] at h
  split at h
  · obtain ⟨⟨l, hl, he⟩, hn, _, _⟩ := Graph.remove_edge_spec _ _ _ h
    rw [he]
    exact ⟨removeFirst_sublist _ _ _ hl, hn⟩
  · cases h1 : (if (st.edgeObj e).head = s then
        Res.ok (st.setEdge e { st.edgeObj e with head := f })
      else if (st.edgeObj e).tail = s then
        Res.ok (st.setEdge e { st.edgeObj e with tail := f })
      else Res.err .assertionError) with
    | ok st2 =>
      rw [h1] at h
      simp only [Res.bind_ok] at h
      obtain ⟨he2, hn2, _, _⟩ := Node.add_edge_spec _ _ _ _ h
      have hst2 : st2.edges = st.edges ∧ st2.nodes = st.nodes := by
        split at h1
        · cases h1; exact ⟨rfl, rfl⟩
        · split at h1
          · cases h1; exact ⟨rfl, rfl⟩
          · cases h1
      rw [he2, hst2.1, hn2, hst2.2]
      exact ⟨List.Sublist.refl _, rfl⟩
    | err pe => rw [h1] at h; cases h
    | nofuel => rw [h1] at h; cases h

theorem mergeLoop_edges (fuel : Nat) : ∀ (st : Graph) (f s i : Nat) (st' : Graph),
    mergeLoop fuel st f s i = Res.ok st' →
    st'.edges.Sublist st.edges ∧ st'.nodes = st.nodes := by
  induction fuel with
  | zero => intro st f s i st' h; cases h
  | succ fuel ih =>
    intro st f s i st' h
    unfold mergeLoop at h
    cases h1 : (st.nodeObj s).edges[i]? with
    | none => rw [h1] at h; cases h; exact ⟨List.Sublist.refl _, rfl⟩
    | some e =>
      rw [h1] at h
      simp only [] at h
      cases h2 : mergeEdgeStep st f s e with
      | ok st₁ =>
        rw [h2] at h
        simp only [Res.bind_ok] at h
        obtain ⟨hsub1, hn1⟩ := mergeEdgeStep_edges _ _ _ _ _ h2
        obtain ⟨hsub2, hn2⟩ := ih _ _ _ _ _ h
        exact ⟨hsub2.trans hsub1, hn2.trans hn1⟩
      | err pe => rw [h2] at h; cases h
      | nofuel => rw [h2] at h; cases h

theorem merge_nodes_edges (fuel : Nat) (st : Graph) (f s : Nat) (st' : Graph)
    (h : _merge_nodes fuel st f s = Res.ok st') :
    st'.edges.Sublist st.edges ∧
    (∃ l, removeFirst st.nodes s = some l ∧ st'.nodes = l) := by
  unfold _merge_nodes at h
  cases h1 : mergeLoop fuel st f s 0 with
  | ok st₁ =>
    rw [h1] at h
    simp only [Res.bind_ok] at h
    obtain ⟨hsub1, hn1⟩ := mergeLoop_edges _ _ _ _ _ _ h1
    obtain ⟨⟨l, hl, hn⟩, he, _, _⟩ := Graph.remove_node_spec _ _ _ h
    rw [hn1] at hl
    exact ⟨by rw [he]; exact hsub1, ⟨l, hl, hn⟩⟩
  | err pe => rw [h1] at h; cases h
  | nofuel => rw [h1] at h; cases h

theorem contractLoop_edges (fuel : Nat) : ∀ (st : Graph) (ρ : Nat → Nat × Nat)
    (k : Nat) (st' : Graph) (k' : Nat),
    contractLoop fuel st ρ k = Res.ok (st', k') → st'.edges.Sublist st.edges := by
  induction fuel with
  | zero => intro st ρ k st' k' h; cases h
  | succ fuel ih =>
    intro st ρ k st' k' h
    unfold contractLoop at h
    split at h
    · cases h1 : _get_random_edge st (ρ k) with
      | ok e =>
        rw [h1] at h
        simp only [Res.bind_ok] at h
        cases h2 : _merge_nodes fuel st (st.edgeObj e).tail (st.edgeObj e).head with
        | ok st₁ =>
          rw [h2] at h
          simp only [Res.bind_ok] at h
          exact (ih _ _ _ _ _ h).trans (merge_nodes_edges _ _ _ _ _ h2).1
        | err pe => rw [h2] at h; cases h
        | nofuel => rw [h2] at h; cases h
      | err pe => rw [h1] at h; cases h
      | nofuel => rw [h1] at h; cases h
    · cases h; exact List.Sublist.refl _

/-! ## C6: trial count and minimum over trials -/

/-- Reference structure of the trial loop, following the spec's words: the
list of per-trial residual edge counts, every trial contracting the same
input state `st0` (the deep-copy semantics — the original is never mutated),
with the random counter threaded through in order. -/
def trialList (fuel : Nat) (st0 : Graph) (ρ : Nat → Nat × Nat) :
    Nat → Nat → Res (List Nat)
  | 0, _ => Res.ok []
  | n + 1, k =>
    Res.bind (contractLoop fuel st0 ρ k) fun r =>
    Res.bind (trialList fuel st0 ρ n r.2) fun rest =>
    Res.ok (r.1.edges.length :: rest)

theorem trialsLoop_eq_trialList (fuel : Nat) (st0 : Graph) (ρ : Nat → Nat × Nat) :
    ∀ (n k m : Nat), trialsLoop fuel st0 ρ n k m =
      Res.bind (trialList fuel st0 ρ n k) fun rs => Res.ok (rs.foldl min m) := by
  intro n
  induction n with
  | zero => intro k m; rfl
  | succ n ih =>
    intro k m
    unfold trialsLoop trialList
    cases h1 : contractLoop fuel st0 ρ k with
    | ok r =>
      simp only [Res.bind_ok]
      rw [ih r.2]
      cases h2 : trialList fuel st0 ρ n r.2 with
      | ok rs =>
        simp only [Res.bind_ok, List.foldl_cons]
        have heq : (if r.1.edges.length < m then r.1.edges.length else m)
            = min m r.1.edges.length := by
          split <;> omega
        rw [heq]
      | err pe => rfl
      | nofuel => rfl
    | err pe => rfl
    | nofuel => rfl

theorem trialList_length (fuel : Nat) (st0 : Graph) (ρ : Nat → Nat × Nat) :
    ∀ (n k : Nat) (rs : List Nat),
      trialList fuel st0 ρ n k = Res.ok rs → rs.length = n := by
  intro n
  induction n with
  | zero => intro k rs h; cases h; rfl
  | succ n ih =>
    intro k rs h
    unfold trialList at h
    cases h1 : contractLoop fuel st0 ρ k with
    | ok r =>
      rw [h1] at h
      simp only [Res.bind_ok] at h
      cases h2 : trialList fuel st0 ρ n r.2 with
      | ok rest =>
        rw [h2] at h
        cases h
        simp [ih _ _ h2]
      | err pe => rw [h2] at h; cases h
      | nofuel => rw [h2] at h; cases h
    | err pe => rw [h1] at h; cases h
    | nofuel => rw [h1] at h; cases h

/-- Every entry of the trial list is at most the input's edge count (the
contraction loop only ever removes edges). -/
theorem trialList_le (fuel : Nat) (st0 : Graph) (ρ : Nat → Nat × Nat) :
    ∀ (n k : Nat) (rs : List Nat),
      trialList fuel st0 ρ n k = Res.ok rs →
      ∀ x ∈ rs, x ≤ st0.edges.length := by
  intro n
  induction n with
  | zero => intro k rs h; cases h; intro x hx; cases hx
  | succ n ih =>
    intro k rs h
    unfold trialList at h
    cases h1 : contractLoop fuel st0 ρ k with
    | ok r =>
      rw [h1] at h
      simp only [Res.bind_ok] at h
      cases h2 : trialList fuel st0 ρ n r.2 with
      | ok rest =>
        rw [h2] at h
        cases h
        intro x hx
        rcases List.mem_cons.mp hx with hx | hx
        · subst hx
          exact (contractLoop_edges fuel st0 ρ k r.1 r.2 (by
            rw [← h1])).length_le
        · exact ih _ _ h2 x hx
      | err pe => rw [h2] at h; cases h
      | nofuel => rw [h2] at h; cases h
    | err pe => rw [h1] at h; cases h
    | nofuel => rw [h1] at h; cases h

theorem foldl_min_le_init (rs : List Nat) (m : Nat) : rs.foldl min m ≤ m := by
  induction rs generalizing m with
  | nil => exact le_refl m
  | cons a t ih =>
    simp only [List.foldl_cons]
    calc t.foldl min (min m a) ≤ min m a := ih (min m a)
      _ ≤ m := by omega

theorem foldl_min_le (rs : List Nat) (m : Nat) :
    ∀ x ∈ rs, rs.foldl min m ≤ x := by
  induction rs generalizing m with
  | nil => intro x hx; cases hx
  | cons a t ih =>
    intro x hx
    simp only [List.foldl_cons]
    rcases List.mem_cons.mp hx with hx | hx
    · subst hx
      calc t.foldl min (min m x) ≤ min m x := foldl_min_le_init t (min m x)
        _ ≤ x := by omega
    · exact ih (min m a) x hx

theorem foldl_min_mem_or (rs : List Nat) (m : Nat) :
    rs.foldl min m ∈ rs ∨ rs.foldl min m = m := by
  induction rs generalizing m with
  | nil => exact Or.inr rfl
  | cons a t ih =>
    simp only [List.foldl_cons]
    rcases ih (min m a) with h | h
    · exact Or.inl (List.mem_cons_of_mem a h)
    · by_cases hma : m ≤ a
      · have hm : min m a = m := by omega
        exact Or.inr (h.trans hm)
      · have hm : min m a = a := by omega
        rw [h, hm]
        exact Or.inl (List.mem_cons_self a t)

/-- C6: `run_random_contraction_algorithm` performs exactly
`len(graph.nodes) ** 2` trials; every trial contracts the same input state
(the `deepcopy` value semantics — the input graph is unchanged and each trial
is independent of the previous trial's wreckage, as shown by the `trialList`
structure, which applies `contractLoop` to the input `st` at every trial);
and when the call returns, the returned value is the minimum of the observed
per-trial residual edge counts (seeded with the input's edge count, which
never undercuts the trials since trials only remove edges): it is an observed
trial value and is at most every observed trial value. -/
theorem c6_run_is_min_over_n_squared_trials (fuel : Nat) (st : Graph)
    (ρ : Nat → Nat × Nat) (m : Nat)
    (hok : run_random_contraction_algorithm fuel st ρ = Res.ok m) :
    ∃ rs : List Nat,
      trialList fuel st ρ (st.nodes.length ^ 2) 0 = Res.ok rs ∧
      rs.length = st.nodes.length ^ 2 ∧
      m = rs.foldl min st.edges.length ∧
      (1 ≤ st.nodes.length → m ∈ rs ∧ ∀ x ∈ rs, m ≤ x) := by
  unfold run_random_contraction_algorithm at hok
  rw [trialsLoop_eq_trialList] at hok
  cases h1 : trialList fuel st ρ (st.nodes.length ^ 2) 0 with
  | ok rs =>
    rw [h1] at hok
    simp only [Res.bind_ok] at hok
    cases hok
    refine ⟨rs, rfl, trialList_length _ _ _ _ _ _ h1, rfl, fun hn => ?_⟩
    have hne : rs ≠ [] := by
      have hl := trialList_length _ _ _ _ _ _ h1
      intro hemp
      subst hemp
      have hpos : 0 < st.nodes.length ^ 2 := pow_pos hn 2
      simp at hl
      omega
    refine ⟨?_, foldl_min_le rs st.edges.length⟩
    rcases foldl_min_mem_or rs st.edges.length with h | h
    · exact h
    · obtain ⟨x, hx⟩ := List.exists_mem_of_ne_nil rs hne
      have h2 := foldl_min_le rs st.edges.length x hx
      have h3 := trialList_le _ _ _ _ _ _ h1 x hx
      have hxe : x = rs.foldl min st.edges.length := by omega
      rw [← hxe]
      exact hx
  | err pe => rw [h1] at hok; cases hok
  | nofuel => rw [h1] at hok; cases hok

/-- Witness for C6: the triangle graph under the always-draw-0 stream returns
2, and the 9 = 3² trials all observe residual 2. -/
theorem c6_run_is_min_over_n_squared_trials_witness :
    run_random_contraction_algorithm 100 triangleG (fun _ => (0, 1)) = Res.ok 2 ∧
    ∃ rs : List Nat,
      trialList 100 triangleG (fun _ => (0, 1)) (triangleG.nodes.length ^ 2) 0 = Res.ok rs ∧
      rs.length = triangleG.nodes.length ^ 2 ∧
      2 = rs.foldl min triangleG.edges.length ∧
      (1 ≤ triangleG.nodes.length → 2 ∈ rs ∧ ∀ x ∈ rs, 2 ≤ x) :=
  ⟨by decide,
    c6_run_is_min_over_n_squared_trials 100 triangleG (fun _ => (0, 1)) 2 (by decide)⟩

/-! ## C10 (amended): graphs that are a matching plus isolated nodes -/

theorem removeFirst_some_of_mem : ∀ (l : List Nat) (a : Nat), a ∈ l →
    ∃ l', removeFirst l a = some l' := by
  intro l a
  induction l with
  | nil => intro h; cases h
  | cons x xs ih =>
    intro h
    unfold removeFirst
    by_cases hx : x = a
    · exact ⟨xs, by simp [hx]⟩
    · rcases List.mem_cons.mp h with h | h
      · exact absurd h.symm hx
      · obtain ⟨l'', hl''⟩ := ih h
        exact ⟨x :: l'', by simp [hx, hl'']⟩

theorem removeFirst_filter_eq : ∀ (l : List Nat) (a : Nat) (l' : List Nat)
    (p : Nat → Bool), removeFirst l a = some l' → p a = false →
    l'.filter p = l.filter p := by
  intro l a
  induction l with
  | nil => intro l' p h; cases h
  | cons x xs ih =>
    intro l' p h hp
    unfold removeFirst at h
    split at h
    · cases h
      subst x
      simp [List.filter_cons, hp]
    · cases h1 : removeFirst xs a with
      | none => rw [h1] at h; cases h
      | some l'' =>
        rw [h1] at h
        cases h
        simp only [List.filter_cons]
        rw [ih l'' p h1 hp]

theorem mem_length_le_one (l : List Nat) (a : Nat) (ha : a ∈ l)
    (hl : l.length ≤ 1) : l = [a] := by
  cases l with
  | nil => cases ha
  | cons x xs =>
    cases xs with
    | nil => simp at ha; simp [ha]
    | cons y ys => simp at hl

/-- Edges incident to node `n` (by current endpoints). -/
def incidentList (st : Graph) (n : Nat) : List Nat :=
  st.edges.filter fun e => (st.edgeObj e).tail = n || (st.edgeObj e).head = n

/-- A graph every component of which is an isolated node or a single pair of
distinct nodes joined by one undirected edge, with `C` components in total:
the node count exceeds the edge count by exactly `C`, every node has at most
one incident edge, and the node objects' lists are exactly their incident
edges. -/
structure MatchInv (st : Graph) (C : Nat) : Prop where
  count_eq : st.nodes.length = C + st.edges.length
  nodes_nodup : st.nodes.Nodup
  edges_nodup : st.edges.Nodup
  endpoints_mem : ∀ e ∈ st.edges,
    (st.edgeObj e).tail ∈ st.nodes ∧ (st.edgeObj e).head ∈ st.nodes
  endpoints_ne : ∀ e ∈ st.edges, (st.edgeObj e).tail ≠ (st.edgeObj e).head
  undirected : ∀ e ∈ st.edges, (st.edgeObj e).directed = false
  deg_le : ∀ n ∈ st.nodes, (incidentList st n).length ≤ 1
  lists_eq : ∀ n ∈ st.nodes,
    (st.nodeObj n).edges = incidentList st n ∧
    (st.nodeObj n).incident_edges = incidentList st n ∧
    (st.nodeObj n).outgoing_edges = incidentList st n

/-- `Node.remove_edge` on an undirected edge that is the node's only list
entry empties all three lists. -/
theorem Node.remove_edge_singleton (st : Graph) (n e : Nat)
    (h1 : (st.nodeObj n).edges = [e])
    (h2 : (st.nodeObj n).incident_edges = [e])
    (h3 : (st.nodeObj n).outgoing_edges = [e])
    (hd : (st.edgeObj e).directed = false) :
    Node.remove_edge st n e = Res.ok (st.setNode n
      { label := (st.nodeObj n).label, edges := [],
        incident_edges := [], outgoing_edges := [] }) := by
  unfold Node.remove_edge
  rw [h1]
  have hrf : removeFirst [e] e = some [] := by simp [removeFirst]
  rw [hrf]
  simp only [setNode_edgeObj, hd, Bool.false_eq_true, if_false,
    setNode_nodeObj_same, h2, h3, hrf, setNode_setNode]

/-- `Graph.remove_edge` on an undirected edge whose two distinct endpoints
each list exactly that edge: the edge leaves the graph list and both endpoint
records are emptied. -/
theorem matching_remove_edge (st : Graph) (e : Nat) (he : e ∈ st.edges)
    (hfs : (st.edgeObj e).tail ≠ (st.edgeObj e).head)
    (hd : (st.edgeObj e).directed = false)
    (hft : (st.nodeObj (st.edgeObj e).tail).edges = [e])
    (hfi : (st.nodeObj (st.edgeObj e).tail).incident_edges = [e])
    (hfo : (st.nodeObj (st.edgeObj e).tail).outgoing_edges = [e])
    (hst : (st.nodeObj (st.edgeObj e).head).edges = [e])
    (hsi : (st.nodeObj (st.edgeObj e).head).incident_edges = [e])
    (hso : (st.nodeObj (st.edgeObj e).head).outgoing_edges = [e]) :
    ∃ st' l, Graph.remove_edge st e = Res.ok st' ∧
      removeFirst st.edges e = some l ∧
      st'.edges = l ∧ st'.nodes = st.nodes ∧ st'.edgeObj = st.edgeObj ∧
      st'.nodeObj (st.edgeObj e).tail
        = { label := (st.nodeObj (st.edgeObj e).tail).label, edges := [],
            incident_edges := [], outgoing_edges := [] } ∧
      st'.nodeObj (st.edgeObj e).head
        = { label := ((st.nodeObj (st.edgeObj e).head)).label, edges := [],
            incident_edges := [], outgoing_edges := [] } ∧
      (∀ m, m ≠ (st.edgeObj e).tail → m ≠ (st.edgeObj e).head →
        st'.nodeObj m = st.nodeObj m) := by
  obtain ⟨l, hl⟩ := removeFirst_some_of_mem st.edges e he
  have h1 := Node.remove_edge_singleton { st with edges := l } (st.edgeObj e).tail e
    hft hfi hfo hd
  set st3 := ({ st with edges := l } : Graph).setNode (st.edgeObj e).tail
    { label := (st.nodeObj (st.edgeObj e).tail).label, edges := [],
      incident_edges := [], outgoing_edges := [] } with hst3
  have hobj3 : st3.nodeObj (st.edgeObj e).head = st.nodeObj (st.edgeObj e).head := by
    rw [hst3]
    exact setNode_nodeObj_other _ _ _ _ (Ne.symm hfs)
  have h2 := Node.remove_edge_singleton st3 (st.edgeObj e).head e
    (by rw [hobj3]; exact hst) (by rw [hobj3]; exact hsi) (by rw [hobj3]; exact hso)
    (by rw [hst3]; exact hd)
  set st4 := st3.setNode (st.edgeObj e).head
      { label := (st3.nodeObj (st.edgeObj e).head).label, edges := [],
        incident_edges := [], outgoing_edges := [] } with hst4
  have hrun : Graph.remove_edge st e = Res.ok st4 := by
    unfold Graph.remove_edge
    rw [hl]
    have hdel : Edge.delete { st with edges := l } e = Res.ok st4 := by
      unfold Edge.delete
      show Res.bind (Node.remove_edge { st with edges := l } (st.edgeObj e).tail e) _ = _
      rw [h1]
      simp only [Res.bind_ok]
      rw [hst4]
      exact h2
    simp only []
    rw [hdel]
  have hE : st4.edges = l := rfl
  have hN : st4.nodes = st.nodes := rfl
  have hO : st4.edgeObj = st.edgeObj := rfl
  have hT : st4.nodeObj (st.edgeObj e).tail
      = { label := (st.nodeObj (st.edgeObj e).tail).label, edges := [],
          incident_edges := [], outgoing_edges := [] } := by
    rw [hst4, setNode_nodeObj_other _ _ _ _ hfs, hst3, setNode_nodeObj_same]
  have hH : st4.nodeObj (st.edgeObj e).head
      = { label := ((st.nodeObj (st.edgeObj e).head)).label, edges := [],
          incident_edges := [], outgoing_edges := [] } := by
    rw [hst4, setNode_nodeObj_same, hst3, setNode_nodeObj_other _ _ _ _ (Ne.symm hfs)]
  have hM : ∀ m, m ≠ (st.edgeObj e).tail → m ≠ (st.edgeObj e).head →
      st4.nodeObj m = st.nodeObj m := by
    intro m hmf hmh
    rw [hst4, setNode_nodeObj_other _ _ _ _ hmh, hst3, setNode_nodeObj_other _ _ _ _ hmf]
  exact ⟨st4, l, hrun, hl, hE, hN, hO, hT, hH, hM⟩

/-- On a matching-plus-isolated-nodes graph, merging the endpoints of a picked
edge either runs out of fuel or succeeds cleanly, removing exactly that edge
and the head node and preserving the matching shape and the component count. -/
theorem matching_merge_inv (fuel : Nat) (st : Graph) (C : Nat) (inv : MatchInv st C)
    (e : Nat) (he : e ∈ st.edges) :
    _merge_nodes fuel st (st.edgeObj e).tail (st.edgeObj e).head = Res.nofuel ∨
    ∃ st', _merge_nodes fuel st (st.edgeObj e).tail (st.edgeObj e).head = Res.ok st' ∧
      MatchInv st' C ∧ st'.nodes.length + 1 = st.nodes.length := by
  have hfs : (st.edgeObj e).tail ≠ (st.edgeObj e).head := inv.endpoints_ne e he
  have hfm : (st.edgeObj e).tail ∈ st.nodes := (inv.endpoints_mem e he).1
  have hsm : (st.edgeObj e).head ∈ st.nodes := (inv.endpoints_mem e he).2
  have hd : (st.edgeObj e).directed = false := inv.undirected e he
  have hIf : incidentList st (st.edgeObj e).tail = [e] := by
    refine mem_length_le_one _ e ?_ (inv.deg_le _ hfm)
    exact List.mem_filter.mpr ⟨he, by simp⟩
  have hIs : incidentList st (st.edgeObj e).head = [e] := by
    refine mem_length_le_one _ e ?_ (inv.deg_le _ hsm)
    exact List.mem_filter.mpr ⟨he, by simp⟩
  obtain ⟨hfE, hfI, hfO⟩ := inv.lists_eq _ hfm
  obtain ⟨hsE, hsI, hsO⟩ := inv.lists_eq _ hsm
  rw [hIf] at hfE hfI hfO
  rw [hIs] at hsE hsI hsO
  obtain ⟨st4, l, hrun, hl, hE4, hN4, hO4, hT4, hH4, hM4⟩ :=
    matching_remove_edge st e he hfs hd hfE hfI hfO hsE hsI hsO
  -- basic consequences of the removals
  have hnotl : e ∉ l := removeFirst_not_mem_of_nodup st.edges e l inv.edges_nodup hl
  have hsubl : l.Sublist st.edges := removeFirst_sublist st.edges e l hl
  have hlenl : l.length + 1 = st.edges.length := removeFirst_length st.edges e l hl
  have hedge_or : ∀ x ∈ st.edges, x ∈ l ∨ x = e := removeFirst_mem_or st.edges e l hl
  -- edges with an endpoint at tail or head can only be e
  have honly : ∀ e' ∈ st.edges,
      ((st.edgeObj e').tail = (st.edgeObj e).tail ∨
        (st.edgeObj e').head = (st.edgeObj e).tail ∨
        (st.edgeObj e').tail = (st.edgeObj e).head ∨
        (st.edgeObj e').head = (st.edgeObj e).head) → e' = e := by
    intro e' he' hcase
    rcases hcase with hc | hc | hc | hc
    · have : e' ∈ incidentList st (st.edgeObj e).tail :=
        List.mem_filter.mpr ⟨he', by simp [hc]⟩
      rw [hIf] at this; simpa using this
    · have : e' ∈ incidentList st (st.edgeObj e).tail :=
        List.mem_filter.mpr ⟨he', by simp [hc]⟩
      rw [hIf] at this; simpa using this
    · have : e' ∈ incidentList st (st.edgeObj e).head :=
        List.mem_filter.mpr ⟨he', by simp [hc]⟩
      rw [hIs] at this; simpa using this
    · have : e' ∈ incidentList st (st.edgeObj e).head :=
        List.mem_filter.mpr ⟨he', by simp [hc]⟩
      rw [hIs] at this; simpa using this
  cases fuel with
  | zero => exact Or.inl rfl
  | succ fuel =>
    have hloop1 : mergeLoop (fuel + 1) st (st.edgeObj e).tail (st.edgeObj e).head 0
        = Res.bind (mergeEdgeStep st (st.edgeObj e).tail (st.edgeObj e).head e) fun st1 =>
            mergeLoop fuel st1 (st.edgeObj e).tail (st.edgeObj e).head 1 := by
      conv_lhs => unfold mergeLoop
      rw [hsE]
      rfl
    have hstep : mergeEdgeStep st (st.edgeObj e).tail (st.edgeObj e).head e
        = Res.ok st4 := by
      unfold mergeEdgeStep
      simp only []
      split
      · exact hrun
      · rename_i hcond2
        simp at hcond2
    cases fuel with
    | zero =>
      left
      unfold _merge_nodes
      rw [hloop1, hstep]
      rfl
    | succ fuel2 =>
      have hloop2 : mergeLoop (fuel2 + 1) st4 (st.edgeObj e).tail (st.edgeObj e).head 1
          = Res.ok st4 := by
        conv_lhs => unfold mergeLoop
        rw [hH4]
        rfl
      obtain ⟨l₂, hl₂⟩ : ∃ l₂, removeFirst st4.nodes (st.edgeObj e).head = some l₂ := by
        rw [hN4]
        exact removeFirst_some_of_mem _ _ hsm
      have hrn : Graph.remove_node st4 (st.edgeObj e).head
          = Res.ok { st4 with nodes := l₂ } := by
        unfold Graph.remove_node
        rw [hl₂]
      right
      refine ⟨{ st4 with nodes := l₂ }, ?_, ?_, ?_⟩
      · unfold _merge_nodes
        rw [hloop1, hstep]
        simp only [Res.bind_ok]
        rw [hloop2]
        simp only [Res.bind_ok]
        exact hrn
      · -- the matching invariant is preserved
        rw [hN4] at hl₂
        have hl₂sub : l₂.Sublist st.nodes := removeFirst_sublist _ _ _ hl₂
        have hl₂len : l₂.length + 1 = st.nodes.length := removeFirst_length _ _ _ hl₂
        have hnode_or : ∀ x ∈ st.nodes, x ∈ l₂ ∨ x = (st.edgeObj e).head :=
          removeFirst_mem_or _ _ _ hl₂
        have hsnotl₂ : (st.edgeObj e).head ∉ l₂ :=
          removeFirst_not_mem_of_nodup _ _ _ inv.nodes_nodup hl₂
        have hRE : ({ st4 with nodes := l₂ } : Graph).edges = l := hE4
        have hRN : ({ st4 with nodes := l₂ } : Graph).nodes = l₂ := rfl
        have hRO : ({ st4 with nodes := l₂ } : Graph).edgeObj = st.edgeObj := hO4
        have hRnode : ({ st4 with nodes := l₂ } : Graph).nodeObj = st4.nodeObj := rfl
        have hIncL : ∀ n, incidentList { st4 with nodes := l₂ } n
            = l.filter fun e' => (st.edgeObj e').tail = n || (st.edgeObj e').head = n := by
          intro n
          unfold incidentList
          rw [hRE, hRO]
        constructor
        · rw [hRN, hRE]
          have := inv.count_eq
          omega
        · rw [hRN]
          exact hl₂sub.nodup inv.nodes_nodup
        · rw [hRE]
          exact hsubl.nodup inv.edges_nodup
        · intro e' he'
          rw [hRE] at he'
          rw [hRO, hRN]
          have he'mem : e' ∈ st.edges := hsubl.mem he'
          have hne : e' ≠ e := fun hh => hnotl (hh ▸ he')
          have ht' : (st.edgeObj e').tail ≠ (st.edgeObj e).head := fun hh =>
            hne (honly e' he'mem (Or.inr (Or.inr (Or.inl hh))))
          have hh' : (st.edgeObj e').head ≠ (st.edgeObj e).head := fun hh =>
            hne (honly e' he'mem (Or.inr (Or.inr (Or.inr hh))))
          have hmt := (inv.endpoints_mem e' he'mem).1
          have hmh := (inv.endpoints_mem e' he'mem).2
          constructor
          · rcases hnode_or _ hmt with h | h
            · exact h
            · exact absurd h ht'
          · rcases hnode_or _ hmh with h | h
            · exact h
            · exact absurd h hh'
        · intro e' he'
          rw [hRE] at he'
          rw [hRO]
          exact inv.endpoints_ne e' (hsubl.mem he')
        · intro e' he'
          rw [hRE] at he'
          rw [hRO]
          exact inv.undirected e' (hsubl.mem he')
        · intro n hn
          rw [hRN] at hn
          rw [hIncL n]
          have hn2 : n ∈ st.nodes := hl₂sub.mem hn
          calc (l.filter fun e' => (st.edgeObj e').tail = n
                  || (st.edgeObj e').head = n).length
              ≤ (incidentList st n).length := ((hsubl.filter _).length_le)
            _ ≤ 1 := inv.deg_le n hn2
        · intro n hn
          rw [hRN] at hn
          rw [hRnode, hIncL n]
          have hn2 : n ∈ st.nodes := hl₂sub.mem hn
          have hns : n ≠ (st.edgeObj e).head := fun hh => hsnotl₂ (hh ▸ hn)
          by_cases hnf : n = (st.edgeObj e).tail
          · subst hnf
            have hflt : (l.filter fun e' => (st.edgeObj e').tail = (st.edgeObj e).tail
                || (st.edgeObj e').head = (st.edgeObj e).tail) = [] := by
              rw [List.filter_eq_nil_iff]
              intro e' he'l hpred
              simp only [Bool.or_eq_true, decide_eq_true_eq] at hpred
              have he'mem : e' ∈ st.edges := hsubl.mem he'l
              have heq : e' = e := by
                rcases hpred with hc | hc
                · exact honly e' he'mem (Or.inl hc)
                · exact honly e' he'mem (Or.inr (Or.inl hc))
              exact hnotl (heq ▸ he'l)
            rw [hflt, hT4]
            exact ⟨rfl, rfl, rfl⟩
          · have hobj : st4.nodeObj n = st.nodeObj n := hM4 n hnf hns
            have hfe : (fun e' => decide ((st.edgeObj e').tail = n)
                || decide ((st.edgeObj e').head = n)) e = false := by
              simp [Ne.symm hnf, Ne.symm hns]
            have hflt := removeFirst_filter_eq st.edges e l
              (fun e' => decide ((st.edgeObj e').tail = n)
                || decide ((st.edgeObj e').head = n)) hl hfe
            rw [hobj, hflt]
            exact inv.lists_eq n hn2
      · show l₂.length + 1 = st.nodes.length
        rw [hN4] at hl₂
        exact removeFirst_length _ _ _ hl₂

/-- On a matching-plus-isolated-nodes graph with more than two components,
the per-trial contraction loop can only fail with `IndexError` (or exhaust
the embedding's fuel): the node count never reaches 2, so the loop keeps
drawing edges until the edge list is empty and `graph.edges[0]` is out of
range. -/
theorem matching_contract (C : Nat) (hC : 2 < C) (ρ : Nat → Nat × Nat) :
    ∀ (fuel : Nat) (st : Graph) (k : Nat), MatchInv st C →
      contractLoop fuel st ρ k = Res.err .indexError ∨
      contractLoop fuel st ρ k = Res.nofuel := by
  intro fuel
  induction fuel with
  | zero => intro st k _; exact Or.inr rfl
  | succ fuel ih =>
    intro st k inv
    unfold contractLoop
    have hgt : st.nodes.length > 2 := by
      have := inv.count_eq
      omega
    rw [if_pos hgt]
    cases hpick : _get_random_edge st (ρ k) with
    | ok e =>
      have hemem : e ∈ st.edges := by
        unfold _get_random_edge at hpick
        simp only [] at hpick
        cases hidx : st.edges[(ρ k).1 * st.edges.length / (ρ k).2]? with
        | some e' =>
          rw [hidx] at hpick
          cases hpick
          exact List.getElem?_mem hidx
        | none => rw [hidx] at hpick; cases hpick
      rcases matching_merge_inv fuel st C inv e hemem with hnf | ⟨st', hok, inv', _⟩
      · right
        simp only [Res.bind_ok]
        rw [hnf]
        rfl
      · simp only [Res.bind_ok]
        rw [hok]
        simp only [Res.bind_ok]
        exact ih st' (k + 1) inv'
    | err pe =>
      have hpe : pe = .indexError := by
        unfold _get_random_edge at hpick
        simp only [] at hpick
        cases hidx : st.edges[(ρ k).1 * st.edges.length / (ρ k).2]? with
        | some e' => rw [hidx] at hpick; cases hpick
        | none => rw [hidx] at hpick; cases hpick; rfl
      left
      simp only [Res.bind_err]
      rw [hpe]
    | nofuel =>
      exfalso
      unfold _get_random_edge at hpick
      simp only [] at hpick
      cases hidx : st.edges[(ρ k).1 * st.edges.length / (ρ k).2]? with
      | some e' => rw [hidx] at hpick; cases hpick
      | none => rw [hidx] at hpick; cases hpick

/-- C10 (amended): for every graph with more than two connected components in
which every component is an isolated node or a single pair of nodes joined by
one undirected edge (`MatchInv st C` with `C` components, `C > 2` — `C`
coincides with `componentCount`), for every random stream, the call never
returns an estimate: the node count stays above two while the edge list only
shrinks, so every trial ends with `_get_random_edge` indexing position 0 of
an empty edge list — the call fails with `IndexError` (or, with too little
fuel, exhausts the embedding's fuel).  (For graphs with more than two
components outside this class, `c10_counterexample_three_components_returns`
shows the call can instead return: connectedness is an unstated precondition
either way.) -/
theorem c10_amended_unconnected_input_fails (fuel : Nat) (st : Graph)
    (ρ : Nat → Nat × Nat) (C : Nat) (hC : 2 < C)
    (hcc : componentCount st = C) (inv : MatchInv st C) :
    run_random_contraction_algorithm fuel st ρ = Res.err .indexError ∨
    run_random_contraction_algorithm fuel st ρ = Res.nofuel := by
  unfold run_random_contraction_algorithm
  have hN : 3 ≤ st.nodes.length := by
    have := inv.count_eq
    omega
  have hpos : 0 < st.nodes.length ^ 2 := pow_pos (by omega) 2
  cases hn2 : st.nodes.length ^ 2 with
  | zero => omega
  | succ n =>
    unfold trialsLoop
    rcases matching_contract C hC ρ fuel st 0 inv with h | h
    · left
      rw [h]
      rfl
    · right
      rw [h]
      rfl

/-- Three isolated nodes (3 components, no edges). -/
def isolated3G : Graph := applyOps [.addNode "a", .addNode "b", .addNode "c"]

/-- Witness for C10 (amended): on three isolated nodes the call fails with
`IndexError` immediately (the very first trial indexes position 0 of the
empty edge list). -/
theorem c10_amended_unconnected_input_fails_witness :
    componentCount isolated3G = 3 ∧
    (run_random_contraction_algorithm 100 isolated3G (fun _ => (0, 1))
        = Res.err .indexError ∨
      run_random_contraction_algorithm 100 isolated3G (fun _ => (0, 1)) = Res.nofuel) ∧
    run_random_contraction_algorithm 100 isolated3G (fun _ => (0, 1))
      = Res.err .indexError :=
  ⟨by decide,
    c10_amended_unconnected_input_fails 100 isolated3G (fun _ => (0, 1)) 3
      (by omega) (by decide)
      { count_eq := by decide
        nodes_nodup := by decide
        edges_nodup := by decide
        endpoints_mem := by decide
        endpoints_ne := by decide
        undirected := by decide
        deg_le := by decide
        lists_eq := by decide },
    by decide⟩

/-! ## C5: the returned estimate never undercuts the true minimum cut

The argument uses a ghost union-find over the input's node ids: every merge
of `f` and `s` joins their classes; every edge the contraction ever deletes
has, at deletion time, its two current endpoints in the same (just-joined)
class, and current endpoints always remain equivalent to original endpoints,
so deleted edges never cross the final partition.  A completed trial ends
with two distinct surviving node objects lying in two different classes, so
the class of one survivor is a nonempty proper node subset whose (original)
crossing edges all survive — the residual count is at least an actual cut of
the input, hence at least the minimum cut. -/

/-- Ghost union-find update: join the classes of `f` and `s`. -/
def ufUpd (r : Nat → Nat) (f s : Nat) : Nat → Nat :=
  fun x => if r x = r s then r f else r x

theorem ufUpd_congr (r : Nat → Nat) (f s x y : Nat) (h : r x = r y) :
    ufUpd r f s x = ufUpd r f s y := by
  unfold ufUpd
  rw [h]

theorem ufUpd_join (r : Nat → Nat) (f s : Nat) : ufUpd r f s f = ufUpd r f s s := by
  unfold ufUpd
  by_cases h : r f = r s <;> simp [h]

/-- Invariant of the contraction state `st` (relative to the trial input
`st0` and ghost class map `r`) maintained across `_merge_nodes`' inner loop:
surviving edges and node lists stay within the input's edge ids, current
endpoints stay equivalent to original endpoints, and already-deleted edges
have equivalent original endpoints. -/
structure MInv (st0 : Graph) (r : Nat → Nat) (st : Graph) : Prop where
  edges_sub : ∀ e ∈ st.edges, e ∈ st0.edges
  lists_sub : ∀ n x, x ∈ (st.nodeObj n).edges → x ∈ st0.edges
  track : ∀ e ∈ st0.edges,
    r (st.edgeObj e).tail = r (st0.edgeObj e).tail ∧
    r (st.edgeObj e).head = r (st0.edgeObj e).head
  removed : ∀ e ∈ st0.edges, e ∉ st.edges →
    r (st0.edgeObj e).tail = r (st0.edgeObj e).head

/-- The full per-trial invariant: additionally, the surviving node objects
are original nodes, duplicate-free, and lie in pairwise distinct classes. -/
structure CInv (st0 : Graph) (r : Nat → Nat) (st : Graph) : Prop where
  minv : MInv st0 r st
  nodes_sub : ∀ n ∈ st.nodes, n ∈ st0.nodes
  nodes_nodup : st.nodes.Nodup
  sep : ∀ a ∈ st.nodes, ∀ b ∈ st.nodes, r a = r b → a = b

theorem MInv_congr (st0 : Graph) (r r' : Nat → Nat) (st : Graph)
    (minv : MInv st0 r st) (h : ∀ x y, r x = r y → r' x = r' y) :
    MInv st0 r' st := by
  refine ⟨minv.edges_sub, minv.lists_sub, fun e he => ?_, fun e he hne => ?_⟩
  · exact ⟨h _ _ (minv.track e he).1, h _ _ (minv.track e he).2⟩
  · exact h _ _ (minv.removed e he hne)

/-- `true` iff edge `e`'s current endpoints lie on opposite sides of the node
set `S` — the edge crosses the cut `(S, complement)`. -/
def crossesCut (st : Graph) (S : List Nat) (e : Nat) : Bool :=
  (decide ((st.edgeObj e).tail ∈ S)) != (decide ((st.edgeObj e).head ∈ S))

/-- The edges of `st` crossing the cut `(S, complement)`. -/
def crossList (st : Graph) (S : List Nat) : List Nat :=
  st.edges.filter (crossesCut st S)

theorem crossesCut_eq_true_iff (st : Graph) (S : List Nat) (e : Nat) :
    crossesCut st S e = true ↔
      ¬(((st.edgeObj e).tail ∈ S) ↔ ((st.edgeObj e).head ∈ S)) := by
  unfold crossesCut
  simp [bne_iff_ne, Ne, decide_eq_decide]

/-- The size of the cut `(S, complement)`. -/
def crossCount (st : Graph) (S : List Nat) : Nat := (crossList st S).length

/-- The minimum cut size of the graph: the least `crossCount` over all
nonempty proper subsets of the node collection (every cut has size at most
the edge count, which also covers graphs with fewer than two nodes, where no
bipartition exists). -/
def minCut (st : Graph) : Nat :=
  ((st.nodes.sublists.filter fun S => !S.isEmpty && S.length < st.nodes.length).map
    (crossCount st)).foldr min st.edges.length

theorem foldr_min_le_init (rs : List Nat) (m : Nat) : rs.foldr min m ≤ m := by
  induction rs with
  | nil => exact le_refl m
  | cons a t ih =>
    simp only [List.foldr_cons]
    omega

theorem foldr_min_le (rs : List Nat) (m : Nat) : ∀ x ∈ rs, rs.foldr min m ≤ x := by
  induction rs with
  | nil => intro x hx; cases hx
  | cons a t ih =>
    intro x hx
    simp only [List.foldr_cons]
    rcases List.mem_cons.mp hx with hx | hx
    · subst hx; omega
    · have := ih x hx; omega

theorem minCut_le_edges (st : Graph) : minCut st ≤ st.edges.length :=
  foldr_min_le_init _ _

theorem minCut_le_crossCount (st : Graph) (S : List Nat)
    (hsub : S.Sublist st.nodes) (hne : S ≠ [])
    (hlt : S.length < st.nodes.length) :
    minCut st ≤ crossCount st S := by
  apply foldr_min_le
  apply List.mem_map.mpr
  refine ⟨S, ?_, rfl⟩
  apply List.mem_filter.mpr
  refine ⟨List.mem_sublists.mpr hsub, ?_⟩
  simp [List.isEmpty_iff, hne, hlt]

theorem nodup_subset_length_le (l₁ l₂ : List Nat) (h₁ : l₁.Nodup)
    (hsub : l₁ ⊆ l₂) : l₁.length ≤ l₂.length := by
  calc l₁.length = l₁.toFinset.card := (List.toFinset_card_of_nodup h₁).symm
    _ ≤ l₂.toFinset.card := Finset.card_le_card fun x hx =>
        List.mem_toFinset.mpr (hsub (List.mem_toFinset.mp hx))
    _ ≤ l₂.length := l₂.toFinset_card_le

/-- A deletion in `_merge_nodes`' self-loop branch preserves `MInv`: the
deleted edge's current endpoints are in one class, so by `track` its original
endpoints are too. -/
theorem MInv_remove_edge (st0 : Graph) (r : Nat → Nat) (st : Graph) (e : Nat)
    (st₁ : Graph) (minv : MInv st0 r st) (he0 : e ∈ st0.edges)
    (hre : r (st.edgeObj e).tail = r (st.edgeObj e).head)
    (h : Graph.remove_edge st e = Res.ok st₁) : MInv st0 r st₁ := by
  obtain ⟨⟨l, hl, hE⟩, hN, hO, hlists⟩ := Graph.remove_edge_spec _ _ _ h
  have hsubl := removeFirst_sublist _ _ _ hl
  refine ⟨?_, ?_, ?_, ?_⟩
  · intro e' he'
    rw [hE] at he'
    exact minv.edges_sub e' (hsubl.mem he')
  · intro n x hx
    exact minv.lists_sub n x (hlists n x hx)
  · intro e' he'
    rw [hO]
    exact minv.track e' he'
  · intro e' he' hne
    rw [hE] at hne
    by_cases hmem : e' ∈ st.edges
    · rcases removeFirst_mem_or _ _ _ hl e' hmem with hc | hc
      · exact absurd hc hne
      · subst hc
        have ht := minv.track e' he'
        rw [← ht.1, ← ht.2]
        exact hre
    · exact minv.removed e' he' hmem

/-- A retarget in `_merge_nodes` preserves `MInv` when the classes of `f` and
`s` coincide: the rewritten endpoint moves from `s`'s class to `f`'s, which
is the same class. -/
theorem MInv_setEdge (st0 : Graph) (r : Nat → Nat) (st : Graph) (e f s : Nat)
    (minv : MInv st0 r st) (hrfs : r f = r s) (o : EdgeObj)
    (ho : (o.tail = (st.edgeObj e).tail ∧ o.head = f ∧ (st.edgeObj e).head = s) ∨
      (o.tail = f ∧ o.head = (st.edgeObj e).head ∧ (st.edgeObj e).tail = s)) :
    MInv st0 r (st.setEdge e o) := by
  refine ⟨?_, ?_, ?_, ?_⟩
  · intro e' he'
    exact minv.edges_sub e' (by simpa using he')
  · intro n x hx
    exact minv.lists_sub n x (by simpa using hx)
  · intro e' he'
    by_cases hee : e' = e
    · subst hee
      rw [setEdge_edgeObj_same]
      have ht := minv.track e' he'
      rcases ho with ⟨h1, h2, h3⟩ | ⟨h1, h2, h3⟩
      · rw [h1, h2]
        refine ⟨ht.1, ?_⟩
        rw [hrfs, ← h3]
        exact ht.2
      · rw [h1, h2]
        refine ⟨?_, ht.2⟩
        rw [hrfs, ← h3]
        exact ht.1
    · rw [setEdge_edgeObj_other _ _ _ _ hee]
      exact minv.track e' he'
  · intro e' he' hne
    exact minv.removed e' he' (by simpa using hne)

/-- Registering an already-known edge id on the surviving node's lists
preserves `MInv`. -/
theorem MInv_add_edge (st0 : Graph) (r : Nat → Nat) (st : Graph) (n e : Nat)
    (st₁ : Graph) (minv : MInv st0 r st) (he0 : e ∈ st0.edges)
    (h : Node.add_edge st n e = Res.ok st₁) : MInv st0 r st₁ := by
  obtain ⟨hE, _, hO, hlists⟩ := Node.add_edge_spec _ _ _ _ h
  refine ⟨?_, ?_, ?_, ?_⟩
  · intro e' he'
    rw [hE] at he'
    exact minv.edges_sub e' he'
  · intro m x hx
    rcases hlists m x hx with hx | hx
    · exact minv.lists_sub m x hx
    · subst hx; exact he0
  · intro e' he'
    rw [hO]
    exact minv.track e' he'
  · intro e' he' hne
    rw [hE] at hne
    exact minv.removed e' he' hne

/-- One body iteration of `_merge_nodes`' edge loop preserves `MInv`. -/
theorem MInv_mergeEdgeStep (st0 : Graph) (r : Nat → Nat) (st : Graph)
    (f s e : Nat) (st₁ : Graph) (minv : MInv st0 r st) (hrfs : r f = r s)
    (he0 : e ∈ st0.edges)
    (h : mergeEdgeStep st f s e = Res.ok st₁) : MInv st0 r st₁ := by
  unfold mergeEdgeStep at h
  simp only [] at h
  split at h
  · rename_i hcond
    refine MInv_remove_edge st0 r st e st₁ minv he0 ?_ h
    rcases hcond with ⟨h1, h2⟩ | ⟨h1, h2⟩
    · rw [h1, h2]; exact hrfs
    · rw [h1, h2]; exact hrfs.symm
  · rename_i hcond
    cases h1 : (if (st.edgeObj e).head = s then
        Res.ok (st.setEdge e { st.edgeObj e with head := f })
      else if (st.edgeObj e).tail = s then
        Res.ok (st.setEdge e { st.edgeObj e with tail := f })
      else Res.err .assertionError) with
    | ok st2 =>
      rw [h1] at h
      simp only [Res.bind_ok] at h
      have hm2 : MInv st0 r st2 := by
        split at h1
        · cases h1
          exact MInv_setEdge st0 r st e f s minv hrfs _
            (Or.inl ⟨rfl, rfl, by assumption⟩)
        · split at h1
          · cases h1
            exact MInv_setEdge st0 r st e f s minv hrfs _
              (Or.inr ⟨rfl, rfl, by assumption⟩)
          · cases h1
      exact MInv_add_edge st0 r st2 f e st₁ hm2 he0 h
    | err pe => rw [h1] at h; cases h
    | nofuel => rw [h1] at h; cases h

theorem MInv_mergeLoop (st0 : Graph) (r : Nat → Nat) (f s : Nat) (hrfs : r f = r s) :
    ∀ (fuel : Nat) (st : Graph) (i : Nat) (st' : Graph), MInv st0 r st →
      mergeLoop fuel st f s i = Res.ok st' → MInv st0 r st' := by
  intro fuel
  induction fuel with
  | zero => intro st i st' _ h; cases h
  | succ fuel ih =>
    intro st i st' minv h
    unfold mergeLoop at h
    cases h1 : (st.nodeObj s).edges[i]? with
    | none =>
      rw [h1] at h
      cases h
      exact minv
    | some e =>
      rw [h1] at h
      simp only [] at h
      have he0 : e ∈ st0.edges := minv.lists_sub s e (List.getElem?_mem h1)
      cases h2 : mergeEdgeStep st f s e with
      | ok st₁ =>
        rw [h2] at h
        simp only [Res.bind_ok] at h
        exact ih st₁ (i + 1) st' (MInv_mergeEdgeStep st0 r st f s e st₁ minv hrfs he0 h2) h
      | err pe => rw [h2] at h; cases h
      | nofuel => rw [h2] at h; cases h

/-- `_merge_nodes` preserves the per-trial invariant, with the ghost classes
of the two merged endpoints joined, and removes exactly one node object. -/
theorem CInv_merge (st0 : Graph) (r : Nat → Nat) (fuel : Nat) (st : Graph)
    (f s : Nat) (st' : Graph) (cinv : CInv st0 r st)
    (h : _merge_nodes fuel st f s = Res.ok st') :
    CInv st0 (ufUpd r f s) st' ∧ st'.nodes.length + 1 = st.nodes.length := by
  have hrfs : ufUpd r f s f = ufUpd r f s s := ufUpd_join r f s
  have minv' : MInv st0 (ufUpd r f s) st :=
    MInv_congr st0 r _ st cinv.minv (ufUpd_congr r f s)
  unfold _merge_nodes at h
  cases h1 : mergeLoop fuel st f s 0 with
  | ok st₁ =>
    rw [h1] at h
    simp only [Res.bind_ok] at h
    have minv₁ : MInv st0 (ufUpd r f s) st₁ :=
      MInv_mergeLoop st0 _ f s hrfs fuel st 0 st₁ minv' h1
    have hnodes₁ : st₁.nodes = st.nodes := (mergeLoop_edges fuel st f s 0 st₁ h1).2
    obtain ⟨⟨l₂, hl₂, hN⟩, hE, hO, hNO⟩ := Graph.remove_node_spec _ _ _ h
    rw [hnodes₁] at hl₂
    have hsmem : s ∈ st.nodes := removeFirst_mem_of_some _ _ _ hl₂
    have hl₂sub := removeFirst_sublist _ _ _ hl₂
    have hnotl₂ : s ∉ l₂ := removeFirst_not_mem_of_nodup _ _ _ cinv.nodes_nodup hl₂
    constructor
    · refine ⟨?_, ?_, ?_, ?_⟩
      · -- MInv carries over: remove_node leaves edges, edgeObj, nodeObj unchanged
        refine ⟨?_, ?_, ?_, ?_⟩
        · intro e' he'
          rw [hE] at he'
          exact minv₁.edges_sub e' he'
        · intro n x hx
          rw [hNO] at hx
          exact minv₁.lists_sub n x hx
        · intro e' he'
          rw [hO]
          exact minv₁.track e' he'
        · intro e' he' hne
          rw [hE] at hne
          exact minv₁.removed e' he' hne
      · intro n hn
        rw [hN] at hn
        exact cinv.nodes_sub n (hl₂sub.mem hn)
      · rw [hN]
        exact hl₂sub.nodup cinv.nodes_nodup
      · intro a ha b hb hr
        rw [hN] at ha hb
        have ha2 : a ∈ st.nodes := hl₂sub.mem ha
        have hb2 : b ∈ st.nodes := hl₂sub.mem hb
        have has : a ≠ s := fun hh => hnotl₂ (hh ▸ ha)
        have hbs : b ≠ s := fun hh => hnotl₂ (hh ▸ hb)
        unfold ufUpd at hr
        by_cases hra : r a = r s
        · exact absurd (cinv.sep a ha2 s hsmem hra) has
        · by_cases hrb : r b = r s
          · exact absurd (cinv.sep b hb2 s hsmem hrb) hbs
          · rw [if_neg hra, if_neg hrb] at hr
            exact cinv.sep a ha2 b hb2 hr
    · rw [hN, ← hnodes₁]
      rw [hnodes₁]
      exact removeFirst_length _ _ _ hl₂
  | err pe => rw [h1] at h; cases h
  | nofuel => rw [h1] at h; cases h

/-- The contraction loop preserves the invariant (for some final class map)
and stops at exactly `min (node count) 2` nodes. -/
theorem CInv_contract (st0 : Graph) (ρ : Nat → Nat × Nat) :
    ∀ (fuel : Nat) (st : Graph) (r : Nat → Nat) (k : Nat) (st' : Graph) (k' : Nat),
      CInv st0 r st → contractLoop fuel st ρ k = Res.ok (st', k') →
      ∃ r', CInv st0 r' st' ∧ st'.nodes.length = min st.nodes.length 2 := by
  intro fuel
  induction fuel with
  | zero => intro st r k st' k' _ h; cases h
  | succ fuel ih =>
    intro st r k st' k' cinv h
    unfold contractLoop at h
    split at h
    · rename_i hgt
      cases h1 : _get_random_edge st (ρ k) with
      | ok e =>
        rw [h1] at h
        simp only [Res.bind_ok] at h
        cases h2 : _merge_nodes fuel st (st.edgeObj e).tail (st.edgeObj e).head with
        | ok st₁ =>
          rw [h2] at h
          simp only [Res.bind_ok] at h
          obtain ⟨cinv₁, hlen₁⟩ := CInv_merge st0 r fuel st _ _ st₁ cinv h2
          obtain ⟨r', cinv', hlen'⟩ := ih st₁ _ (k + 1) st' k' cinv₁ h
          refine ⟨r', cinv', ?_⟩
          omega
        | err pe => rw [h2] at h; cases h
        | nofuel => rw [h2] at h; cases h
      | err pe => rw [h1] at h; cases h
      | nofuel => rw [h1] at h; cases h
    · rename_i hle
      cases h
      refine ⟨r, cinv, ?_⟩
      omega

/-- The well-formedness a graph needs before being handed to the contraction
estimator (satisfied by every graph built through the label-based API). -/
structure ContractReady (st : Graph) : Prop where
  nodes_nodup : st.nodes.Nodup
  edges_nodup : st.edges.Nodup
  lists_sub : ∀ n x, x ∈ (st.nodeObj n).edges → x ∈ st.edges
  endpoints_mem : ∀ e ∈ st.edges,
    (st.edgeObj e).tail ∈ st.nodes ∧ (st.edgeObj e).head ∈ st.nodes

theorem WF.contractReady (st : Graph) (wf : WF st) : ContractReady st :=
  ⟨wf.nodes_nodup, wf.edges_nodup, fun n x => wf.lists_sub n x, wf.endpoints_mem⟩

/-- A completed trial's residual edge count is at least the input's minimum
cut. -/
theorem trial_ge_minCut (st0 : Graph) (ρ : Nat → Nat × Nat)
    (ready : ContractReady st0) (fuel k : Nat) (st' : Graph) (k' : Nat)
    (h : contractLoop fuel st0 ρ k = Res.ok (st', k')) :
    minCut st0 ≤ st'.edges.length := by
  have cinv0 : CInv st0 id st0 :=
    { minv :=
        { edges_sub := fun _ he => he
          lists_sub := fun n x => ready.lists_sub n x
          track := fun _ _ => ⟨rfl, rfl⟩
          removed := fun _ he hne => absurd he hne }
      nodes_sub := fun _ hn => hn
      nodes_nodup := ready.nodes_nodup
      sep := fun a _ b _ hab => hab }
  obtain ⟨r', cinv', hlen⟩ := CInv_contract st0 ρ fuel st0 id k st' k' cinv0 h
  by_cases hN : st0.nodes.length > 2
  · -- the loop ran to two surviving nodes in two distinct classes
    have hlen2 : st'.nodes.length = 2 := by omega
    have hnd := cinv'.nodes_nodup
    cases hnl : st'.nodes with
    | nil => rw [hnl] at hlen2; simp at hlen2
    | cons p t =>
      cases t with
      | nil => rw [hnl] at hlen2; simp at hlen2
      | cons q t2 =>
        have hpmem : p ∈ st'.nodes := by rw [hnl]; exact List.mem_cons_self _ _
        have hqmem : q ∈ st'.nodes := by
          rw [hnl]; exact List.mem_cons_of_mem _ (List.mem_cons_self _ _)
        have hpq : p ≠ q := by
          rw [hnl] at hnd
          have := (List.nodup_cons.mp hnd).1
          exact fun hh => this (hh ▸ List.mem_cons_self q t2)
        have hp0 : p ∈ st0.nodes := cinv'.nodes_sub p hpmem
        have hq0 : q ∈ st0.nodes := cinv'.nodes_sub q hqmem
        set S := st0.nodes.filter (fun x => decide (r' x = r' p)) with hS
        have hpS : p ∈ S := by
          rw [hS]
          exact List.mem_filter.mpr ⟨hp0, by simp⟩
        have hqS : q ∉ S := by
          rw [hS]
          intro hmem
          have := (List.mem_filter.mp hmem).2
          have hr : r' q = r' p := by simpa using this
          exact hpq (cinv'.sep q hqmem p hpmem hr).symm
        have hSsub : S.Sublist st0.nodes := by rw [hS]; exact List.filter_sublist _
        have hSlt : S.length < st0.nodes.length := by
          rcases Nat.lt_or_ge S.length st0.nodes.length with hh | hh
          · exact hh
          · exfalso
            have heq : S.length = st0.nodes.length :=
              le_antisymm hSsub.length_le hh
            have := hSsub.eq_of_length heq
            exact hqS (this ▸ hq0)
        have hcross_sub : ∀ e ∈ crossList st0 S, e ∈ st'.edges := by
          intro e he
          have he0 : e ∈ st0.edges := (List.mem_filter.mp he).1
          have hcr : crossesCut st0 S e = true := (List.mem_filter.mp he).2
          by_contra hnotin
          have hrem := cinv'.minv.removed e he0 hnotin
          have hiff : ((st0.edgeObj e).tail ∈ S) ↔ ((st0.edgeObj e).head ∈ S) := by
            rw [hS]
            constructor
            · intro hmem
              obtain ⟨_, hrp⟩ := List.mem_filter.mp hmem
              refine List.mem_filter.mpr ⟨(ready.endpoints_mem e he0).2, ?_⟩
              simp only [decide_eq_true_eq] at hrp ⊢
              rw [← hrem]
              exact hrp
            · intro hmem
              obtain ⟨_, hrp⟩ := List.mem_filter.mp hmem
              refine List.mem_filter.mpr ⟨(ready.endpoints_mem e he0).1, ?_⟩
              simp only [decide_eq_true_eq] at hrp ⊢
              rw [hrem]
              exact hrp
          rw [crossesCut_eq_true_iff] at hcr
          exact hcr hiff
        have hcross_nodup : (crossList st0 S).Nodup :=
          ready.edges_nodup.filter _
        calc minCut st0 ≤ crossCount st0 S :=
              minCut_le_crossCount st0 S hSsub
                (fun hh => by rw [hh] at hpS; cases hpS) hSlt
          _ ≤ st'.edges.length :=
              nodup_subset_length_le _ _ hcross_nodup hcross_sub
  · -- at most two nodes: the loop is a no-op and the residual is every edge
    cases fuel with
    | zero => cases h
    | succ fuel =>
      unfold contractLoop at h
      rw [if_neg hN] at h
      cases h
      exact minCut_le_edges st0

theorem trialsLoop_ge_minCut (fuel : Nat) (st0 : Graph) (ρ : Nat → Nat × Nat)
    (ready : ContractReady st0) :
    ∀ (n k m v : Nat), minCut st0 ≤ m →
      trialsLoop fuel st0 ρ n k m = Res.ok v → minCut st0 ≤ v := by
  intro n
  induction n with
  | zero =>
    intro k m v hm h
    cases h
    exact hm
  | succ n ih =>
    intro k m v hm h
    unfold trialsLoop at h
    cases h1 : contractLoop fuel st0 ρ k with
    | ok r =>
      rw [h1] at h
      simp only [Res.bind_ok] at h
      have htrial : minCut st0 ≤ r.1.edges.length :=
        trial_ge_minCut st0 ρ ready fuel k r.1 r.2 (by rw [← h1])
      refine ih r.2 _ v ?_ h
      split <;> omega
    | err pe => rw [h1] at h; cases h
    | nofuel => rw [h1] at h; cases h

/-- C5: for every graph acceptable to the estimator and every sequence of
random draws, a normal return of `run_random_contraction_algorithm` is never
smaller than the graph's true minimum edge cut: every deleted edge lies, at
deletion time, inside a just-merged class, so each trial's residual edge
count dominates the size of an actual cut of the input graph (the class of
one of the two surviving nodes), and the minimum over trials — seeded with
the full edge count — can overestimate but never underestimate. -/
theorem c5_estimate_never_below_min_cut (fuel : Nat) (st : Graph)
    (ρ : Nat → Nat × Nat) (m : Nat) (ready : ContractReady st)
    (hok : run_random_contraction_algorithm fuel st ρ = Res.ok m) :
    minCut st ≤ m := by
  unfold run_random_contraction_algorithm at hok
  exact trialsLoop_ge_minCut fuel st ρ ready (st.nodes.length ^ 2) 0
    st.edges.length m (minCut_le_edges st) hok

/-- Witness for C5: on the triangle graph (true minimum cut 2) with the
always-draw-0 stream, the run returns 2 and the bound holds with equality. -/
theorem c5_estimate_never_below_min_cut_witness :
    minCut triangleG = 2 ∧
    run_random_contraction_algorithm 100 triangleG (fun _ => (0, 1)) = Res.ok 2 ∧
    minCut triangleG ≤ 2 :=
  ⟨by decide, by decide,
    c5_estimate_never_below_min_cut 100 triangleG (fun _ => (0, 1)) 2
      (WF.contractReady _ (WF_applyOps
        [.addNode "a", .addNode "b", .addNode "c",
          .addEdge "a" "b" none false, .addEdge "b" "c" none false,
          .addEdge "c" "a" none false]))
      (by decide)⟩

end Graphs
